import Mathlib

/-!
Verification development for the diarization-aligned transcription pipeline
(`engine.py`).  Timestamps (Python floats) are modelled as exact rationals;
Python dicts for turns / chunks / words / segments become structures; the
collaborators (diarization model, Whisper ASR, ffmpeg extraction) become
explicit oracle parameters; Python exceptions become `Except String`.
-/

namespace Transcriber

/-- A diarization turn, `{"start": .., "end": .., "speaker": ..}` as produced
by `run_diarization`. -/
structure Turn where
  start : ℚ
  «end» : ℚ
  speaker : String
deriving Repr, DecidableEq

/-- A processing chunk, `{"start": .., "end": .., "turns": ..}` as built in
`transcribe_file`.  The `turns` key is written by the diarization-driven
branch (and absent in the fallback branch) but is never read afterwards; it
is kept here as a plain field, `[]` in the fallback. -/
structure Chunk where
  start : ℚ
  «end» : ℚ
  turns : List Turn
deriving Repr, DecidableEq

/-- A speaker-tagged word appended to `all_speaker_words`. -/
structure SpeakerWord where
  word : String
  start : ℚ
  «end» : ℚ
  speaker_raw : String
deriving Repr, DecidableEq

/-- An output segment, `{"start", "timestamp", "text", "speaker"}`. -/
structure Seg where
  start : ℚ
  timestamp : String
  text : String
  speaker : String
deriving Repr, DecidableEq

/-- Zero-pad to two digits, Python's `f"{n:02}"` for an integer. -/
def pad2 (n : ℤ) : String :=
  if 0 ≤ n ∧ n < 10 then ("0") ++ toString n else toString n

/-- The `format_timestamp` (engine.py:54-60).  Python's `//` and `%` on floats
are floor division and nonnegative remainder; `int` of the nonnegative
remainder is its floor. -/
def format_timestamp (seconds : ℚ) : String :=
  let hours : ℤ := ⌊seconds / 3600⌋
  let minutes : ℤ := ⌊(seconds - 3600 * ⌊seconds / 3600⌋) / 60⌋
  let secs : ℤ := ⌊seconds - 60 * ⌊seconds / 60⌋⌋
  if hours > 0 then pad2 hours ++ ":" ++ pad2 minutes ++ ":" ++ pad2 secs
  else pad2 minutes ++ ":" ++ pad2 secs

/-- One step of the best-overlap loop of `get_speaker_for_word`
(engine.py:97-104): the accumulator is `(best_speaker, best_overlap)`. -/
def bestStep (word_start word_end : ℚ) (acc : Option String × ℚ) (entry : Turn) :
    Option String × ℚ :=
  let overlap_start := max word_start entry.start
  let overlap_end := min word_end entry.«end»
  if overlap_end > overlap_start then
    let overlap := overlap_end - overlap_start
    if overlap > acc.2 then (some entry.speaker, overlap) else acc
  else acc

/-- Key used by the nearest-turn fallback (engine.py:110). -/
def nearKey (mid : ℚ) (s : Turn) : ℚ :=
  min |s.start - mid| |s.«end» - mid|

/-- Python's `min(timeline, key=...)`: first element attaining the minimal
key wins ties. -/
def minByKey (key : Turn → ℚ) (t0 : Turn) (rest : List Turn) : Turn :=
  rest.foldl (fun b s => if key s < key b then s else b) t0

/-- The `get_speaker_for_word` (engine.py:89-111).  Note the Python truthiness
test `if best_speaker:`: a best speaker that is `None` **or the empty
string** falls through to the nearest-turn fallback. -/
def get_speaker_for_word (timeline : List Turn) (word_start word_end : ℚ) :
    String :=
  match timeline with
  | [] => "Unknown"
  | t0 :: rest =>
    let best := (t0 :: rest).foldl (bestStep word_start word_end) (none, 0)
    match best.1 with
    | some s =>
      if s ≠ "" then s
      else
        let mid := (word_start + word_end) / 2
        (minByKey (nearKey mid) t0 rest).speaker
    | none =>
      let mid := (word_start + word_end) / 2
      (minByKey (nearKey mid) t0 rest).speaker

/-- The chunk-building loop of `transcribe_file` (engine.py:198-211), as a
recursion over the remaining timeline.  State: `chunk_start_time` and the
accumulated `current_chunk_turns`.  A chunk closes when the elapsed span
since `chunk_start_time` reaches 30 s or the turn is the last one; on a
non-final close the next chunk starts at the next turn's start. -/
def planChunks : List Turn → ℚ → List Turn → List Chunk
  | [], _, _ => []
  | [e], chunk_start, cur => [⟨chunk_start, e.«end», cur ++ [e]⟩]
  | e :: e2 :: rest, chunk_start, cur =>
    if e.«end» - chunk_start ≥ 30 then
      ⟨chunk_start, e.«end», cur ++ [e]⟩ :: planChunks (e2 :: rest) e2.start []
    else
      planChunks (e2 :: rest) chunk_start (cur ++ [e])

/-- The `natural_chunks` for a (possibly empty) timeline (engine.py:193-211). -/
def naturalChunks (timeline : List Turn) : List Chunk :=
  match timeline with
  | [] => []
  | t0 :: _ => planChunks timeline t0.start []

/-- Fallback fixed-width chunking (engine.py:213-216):
`[{"start": i*30, "end": min((i+1)*30, duration)} for i in
range(math.ceil(duration/30))]`. -/
def fallbackChunks (duration : ℚ) : List Chunk :=
  (List.range (Int.toNat ⌈duration / 30⌉)).map
    (fun i : ℕ => ⟨30 * (i : ℚ), min (30 * ((i : ℚ) + 1)) duration, []⟩)

/-- The chunk list `transcribe_file` actually iterates: the diarization-driven
chunks, or the fixed-width fallback when they are empty. -/
def chunksFor (timeline : List Turn) (duration : ℚ) : List Chunk :=
  let nc := naturalChunks timeline
  if nc = [] then fallbackChunks duration else nc

/-! ### Regular expressions of `clean_hallucinations`

The eight hallucination patterns (engine.py:72-81) and the whitespace
collapse (engine.py:85) use only: case-insensitive literals, character
classes, greedy `*` / `+` / `?` over classes, a bounded group repetition
`{1,2}`, literal alternation, and `\b`.  We embed exactly that fragment with
Python's leftmost / greedy / first-alternative backtracking semantics.
`\w` (for `\b`) and the IGNORECASE fold are modelled over the
Latin / Cyrillic / digit / underscore alphabet these patterns and this
program's inputs range over. -/

/-- Word character for `\b` (Python `\w`), over the program's alphabet. -/
def isWordCh (c : Char) : Bool :=
  c.isAlphanum || c = '_' || ('А' ≤ c && c ≤ 'я') || c = 'Ё' || c = 'ё'

/-- Python `\s` (ASCII part: space, tab, newline, carriage return,
vertical tab, form feed). -/
def isSpCh (c : Char) : Bool :=
  c = ' ' || c = '\t' || c = '\n' || c = '\r' ||
    c = Char.ofNat 11 || c = Char.ofNat 12

/-- Case fold for `re.IGNORECASE` over the pattern alphabet: ASCII `A-Z`
and Cyrillic `А-Я`, `Ё` map to lowercase. -/
def foldCh (c : Char) : Char :=
  if 'A' ≤ c && c ≤ 'Z' then Char.ofNat (c.toNat + 32)
  else if 'А' ≤ c && c ≤ 'Я' then Char.ofNat (c.toNat + 32)
  else if c = 'Ё' then 'ё'
  else c

/-- The `[А-ЯA-Z]` (equivalently `[а-яa-z]`) under IGNORECASE: any char whose
fold lies in `a-z` or `а-я`. -/
def clsLetter (c : Char) : Bool :=
  let d := foldCh c
  ('a' ≤ d && d ≤ 'z') || ('а' ≤ d && d ≤ 'я')

/-- The class `\.` as a predicate. -/
def dotCls (c : Char) : Bool := c = '.'

/-- The negated class `[^\.]` (matches everything but `.`, including
newline). -/
def notDot (c : Char) : Bool := !(c = '.')

/-- The regex fragment used by `clean_hallucinations`: stars and plus occur
only over single-character classes, so repetition is bounded by the input. -/
inductive RE where
  | eps
  | lit (c : Char)
  | cls (f : Char → Bool)
  | starC (f : Char → Bool)
  | optC (f : Char → Bool)
  | bnd
  | seq (a b : RE)
  | alt (a b : RE)

/-- Wordness of the character just before offset `j` in `s` (`prev` at
`j = 0`). -/
def prevAt (s : List Char) (prev : Bool) (j : ℕ) : Bool :=
  match s.get? (j - 1) with
  | some c => isWordCh c
  | none => prev

/-- Greedy attempts for a class star: consume `j` characters, else `j-1`,
…, else `0`; first success wins (Python's greedy backtracking). -/
def starTries (s : List Char) (prev : Bool) (k : List Char → Bool → Option ℕ) :
    ℕ → Option ℕ
  | 0 => k s prev
  | j + 1 =>
    match k (s.drop (j + 1)) (prevAt s prev (j + 1)) with
    | some n => some (n + (j + 1))
    | none => starTries s prev k j

/-- CPS matcher: `matchRE r s prev k` = total number of characters consumed
by `r` followed by the continuation `k`, exploring alternatives in Python's
backtracking order (greedy repetition, first alternative first).  `prev` is
the wordness of the character before the current position. -/
def matchRE : RE → List Char → Bool → (List Char → Bool → Option ℕ) → Option ℕ
  | .eps, s, prev, k => k s prev
  | .lit c, s, _, k =>
    match s with
    | [] => none
    | x :: xs =>
      if foldCh x = foldCh c then
        match k xs (isWordCh x) with
        | some n => some (n + 1)
        | none => none
      else none
  | .cls f, s, _, k =>
    match s with
    | [] => none
    | x :: xs =>
      if f x then
        match k xs (isWordCh x) with
        | some n => some (n + 1)
        | none => none
      else none
  | .optC f, s, prev, k =>
    match s with
    | [] => k s prev
    | x :: xs =>
      if f x then
        match k xs (isWordCh x) with
        | some n => some (n + 1)
        | none => k s prev
      else k s prev
  | .starC f, s, prev, k => starTries s prev k (s.takeWhile f).length
  | .bnd, s, prev, k =>
    let nextW := match s with
      | c :: _ => isWordCh c
      | [] => false
    if prev ≠ nextW then k s prev else none
  | .seq a b, s, prev, k => matchRE a s prev (fun s2 p2 => matchRE b s2 p2 k)
  | .alt a b, s, prev, k =>
    match matchRE a s prev k with
    | some n => some n
    | none => matchRE b s prev k

/-- Length of the match of `r` at the current position, if any. -/
def matchAt (r : RE) (s : List Char) (prev : Bool) : Option ℕ :=
  matchRE r s prev (fun _ _ => some 0)

/-- Python `re.sub(r, repl, ·)`: scan left to right, replacing each leftmost
non-overlapping match.  Structural recursion on a character-count fuel
(each step consumes at least one character, so `s.length` fuel is enough;
the fuel-out branch is unreachable at that fuel). -/
def subLoopF (r : RE) (repl : List Char) : ℕ → List Char → Bool → List Char
  | _, [], _ => []
  | 0, s, _ => s
  | fuel + 1, c :: rest, prev =>
    match matchAt r (c :: rest) prev with
    | some 0 => repl ++ c :: subLoopF r repl fuel rest (isWordCh c)
    | some (n + 1) =>
      repl ++ subLoopF r repl fuel ((c :: rest).drop (n + 1))
        (prevAt (c :: rest) prev (n + 1))
    | none => c :: subLoopF r repl fuel rest (isWordCh c)

/-- The `re.sub` on a character list. -/
def subLoop (r : RE) (repl : List Char) (s : List Char) (prev : Bool) :
    List Char :=
  subLoopF r repl s.length s prev

/-- The `re.sub` on strings; at the start of the string there is no preceding
word character. -/
def pysub (r : RE) (repl : String) (s : String) : String :=
  String.mk (subLoop r repl.data s.data false)

/-- Case-insensitive literal. -/
def rlit (w : String) : RE :=
  w.data.foldr (fun c acc => .seq (.lit c) acc) .eps

/-- The `X+` over a class: one occurrence then a greedy star. -/
def rplus (f : Char → Bool) : RE := .seq (.cls f) (.starC f)

/-- The group `[А-ЯA-Z]\.?\s*` of patterns 1 and 2. -/
def nameGrp : RE := .seq (.cls clsLetter) (.seq (.optC dotCls) (.starC isSpCh))

/-- The `\bРедактор субтитров\s+([А-ЯA-Z]\.?\s*){1,2}[А-ЯA-Z][а-яa-z]+`;
`{1,2}` greedy is the alternation (two copies | one copy). -/
def pat1 : RE :=
  .seq .bnd (.seq (rlit ("Редактор субтитров")) (.seq (rplus isSpCh)
    (.seq (.alt (.seq nameGrp nameGrp) nameGrp)
      (.seq (.cls clsLetter) (rplus clsLetter)))))

/-- The `\bКорректор\s+([А-ЯA-Z]\.?\s*){1,2}[А-ЯA-Z][а-яa-z]+`. -/
def pat2 : RE :=
  .seq .bnd (.seq (rlit ("Корректор")) (.seq (rplus isSpCh)
    (.seq (.alt (.seq nameGrp nameGrp) nameGrp)
      (.seq (.cls clsLetter) (rplus clsLetter)))))

/-- The `\bKEYWORD\s*:\s*[^\.]+` for patterns 3-5. -/
def colonPat (kw : String) : RE :=
  .seq .bnd (.seq (rlit kw) (.seq (.starC isSpCh)
    (.seq (.lit ':') (.seq (.starC isSpCh) (rplus notDot)))))

def pat3 : RE := colonPat ("Субтитры")

def pat4 : RE := colonPat ("Перевод")

def pat5 : RE := colonPat ("Озвучка")

/-- The `\bРедактор субтитров\b`. -/
def pat6 : RE := .seq .bnd (.seq (rlit ("Редактор субтитров")) .bnd)

/-- The `\bКорректор\b`. -/
def pat7 : RE := .seq .bnd (.seq (rlit ("Корректор")) .bnd)

/-- The `\b(Все права защищены|Продолжение следует|Ставьте лайки|Подписывайтесь на канал)\b`. -/
def pat8 : RE :=
  .seq .bnd (.seq (.alt (rlit ("Все права защищены"))
    (.alt (rlit ("Продолжение следует"))
      (.alt (rlit ("Ставьте лайки")) (rlit ("Подписывайтесь на канал"))))) .bnd)

/-- The eight patterns, in source order (engine.py:72-81). -/
def hallucinationPats : List RE := [pat1, pat2, pat3, pat4, pat5, pat6, pat7, pat8]

/-- The `\s+`, for the whitespace collapse. -/
def wsPlus : RE := rplus isSpCh

/-- Python `str.strip()` (over the modelled whitespace set). -/
def pystrip (l : List Char) : List Char :=
  ((l.dropWhile isSpCh).reverse.dropWhile isSpCh).reverse

/-- The `clean_hallucinations` (engine.py:70-86): the eight substitutions in
order, then collapse runs of whitespace to a single space, then strip. -/
def clean_hallucinations (text : String) : String :=
  let cleaned := hallucinationPats.foldl (fun acc p => pysub p ("") acc) text
  let collapsed := pysub wsPlus (" ") cleaned
  String.mk (pystrip collapsed.data)

/-! ### The transcription pipeline (`transcribe_file`) -/

/-- Offset of the first `]` with no newline before it: the extent of the
non-greedy `\[.*?\]` (engine.py:262), where `.` does not match `\n`. -/
def findClose : List Char → Option ℕ
  | [] => none
  | c :: rest =>
    if c = ']' then some 0
    else if c = '\n' then none
    else (findClose rest).map (fun j => j + 1)

/-- The `re.sub(r'\[.*?\]', '', ·)`: drop each bracketed tag.  Fueled like
`subLoopF`. -/
def bracketSubF : ℕ → List Char → List Char
  | _, [] => []
  | 0, l => l
  | fuel + 1, c :: rest =>
    if c = '[' then
      match findClose rest with
      | some j => bracketSubF fuel (rest.drop (j + 1))
      | none => c :: bracketSubF fuel rest
    else c :: bracketSubF fuel rest

def bracketSub (l : List Char) : List Char := bracketSubF l.length l

/-- A Whisper word `{"word": .., "start": .., "end": ..}` (chunk-relative
times). -/
structure PyWord where
  word : String
  start : ℚ
  «end» : ℚ
deriving Repr, DecidableEq

/-- A Whisper segment as consumed by the pipeline (engine.py:259-283). -/
structure PySeg where
  text : String
  start : ℚ
  «end» : ℚ
  words : List PyWord
deriving Repr, DecidableEq

/-- The final task dict: `filename`, `status`, `progress`, `result` and the
`error` key set only by the exception handler. -/
structure Task where
  filename : String
  status : String
  progress : ℤ
  result : List Seg
  error : Option String
deriving Repr, DecidableEq

/-- Words contributed by one Whisper segment (engine.py:259-283): with no
word timestamps, the segment text minus bracketed tags becomes a single
entry if non-blank; otherwise each non-blank stripped word becomes an
entry.  Both are tagged via `get_speaker_for_word` at absolute time. -/
def segWords (timeline : List Turn) (start_time : ℚ) (sg : PySeg) :
    List SpeakerWord :=
  match sg.words with
  | [] =>
    let text := String.mk (pystrip (bracketSub sg.text.data))
    if text ≠ "" then
      [⟨text, sg.start + start_time, sg.«end» + start_time,
        get_speaker_for_word timeline (sg.start + start_time)
          (sg.«end» + start_time)⟩]
    else []
  | _ :: _ =>
    sg.words.filterMap (fun w =>
      let word_text := String.mk (pystrip w.word.data)
      if word_text ≠ "" then
        some ⟨word_text, w.start + start_time, w.«end» + start_time,
          get_speaker_for_word timeline (w.start + start_time)
            (w.«end» + start_time)⟩
      else none)

/-- The `" ".join(...)`. -/
def joinSpace (ws : List String) : String := String.intercalate (" ") ws

/-- Python `l[-50:]`. -/
def lastN (n : ℕ) (l : List String) : List String := l.drop (l.length - n)

/-- Default initial prompt (engine.py:256). -/
def defaultPrompt : String := "Это аудиозапись беседы или интервью."

/-- Context prompt for a chunk (engine.py:241-244, 256): the last 50
accumulated words, or the default when none yet. -/
def promptFor (words : List SpeakerWord) : String :=
  if words ≠ [] then joinSpace (lastN 50 (words.map (fun w => w.word)))
  else defaultPrompt

/-- The per-chunk loop of `transcribe_file` (engine.py:222-289).  `extract i`
tells whether ffmpeg produced the chunk file (a missing file is skipped by
`continue`); `asr` is the Whisper call, whose exception aborts the loop.
Accumulates `all_speaker_words`, the published reports, and the current
progress; an error carries the reports and progress reached so far. -/
def chunkLoop (timeline : List Turn) (extract : ℕ → Bool)
    (asr : ℕ → ℚ → ℚ → String → Except String (List PySeg)) (total : ℕ) :
    List Chunk → ℕ → List SpeakerWord → List (String × ℤ) → ℤ →
      Except (String × List (String × ℤ) × ℤ)
        (List SpeakerWord × List (String × ℤ) × ℤ)
  | [], _, words, reports, pct => .ok (words, reports, pct)
  | chunk :: rest, i, words, reports, pct =>
    let duration_s := chunk.«end» - chunk.start
    if duration_s ≤ 0 then
      chunkLoop timeline extract asr total rest (i + 1) words reports pct
    else if !(extract i) then
      chunkLoop timeline extract asr total rest (i + 1) words reports pct
    else
      match asr i chunk.start duration_s (promptFor words) with
      | .error e => .error (e, reports, pct)
      | .ok segs =>
        let words2 := words ++ (segs.map (segWords timeline chunk.start)).flatten
        let pct2 : ℤ := 10 + ⌊((i : ℚ) + 1) / (total : ℚ) * 80⌋
        chunkLoop timeline extract asr total rest (i + 1) words2
          (reports ++ [("transcribing", pct2)]) pct2

/-- State of the final-grouping loop (engine.py:294-332): the current run of
same-raw-speaker words, the emitted segments, `speaker_map` (an assoc list
in insertion order) and `speaker_counter`. -/
structure AggSt where
  cur_raw : String
  cur_start : ℚ
  cur_words : List String
  segs : List Seg
  map : List (String × String)
  counter : ℕ
deriving Repr, DecidableEq

/-- Flush the current run (engine.py:304-315 = 320-332): mint a display
label if the raw label has none, clean and re-collapse the joined text, and
emit a segment only when the cleaned text is non-empty. -/
def flushRun (st : AggSt) : List Seg × List (String × String) × ℕ :=
  let mc :=
    if (st.map.lookup st.cur_raw).isSome then (st.map, st.counter)
    else (st.map ++ [(st.cur_raw, "Speaker " ++ toString (st.counter + 1))],
      st.counter + 1)
  let text0 := clean_hallucinations (joinSpace st.cur_words)
  let text := pysub wsPlus (" ") text0
  let segs :=
    if text ≠ "" then
      st.segs ++ [⟨st.cur_start, format_timestamp st.cur_start, text,
        (mc.1.lookup st.cur_raw).getD ("")⟩]
    else st.segs
  (segs, mc.1, mc.2)

/-- The loop over `all_speaker_words[1:]` (engine.py:300-318). -/
def aggLoop : List SpeakerWord → AggSt → AggSt
  | [], st => st
  | sw :: rest, st =>
    if sw.speaker_raw = st.cur_raw then
      aggLoop rest { st with cur_words := st.cur_words ++ [sw.word] }
    else
      let smc := flushRun st
      aggLoop rest ⟨sw.speaker_raw, sw.start, [sw.word], smc.1, smc.2.1, smc.2.2⟩

/-- Phase 3 of `transcribe_file` (engine.py:294-332).  The trailing
`if current_words:` flush always fires, since the current run is never
empty once there is at least one word. -/
def finalGrouping (all_speaker_words : List SpeakerWord) :
    List Seg × List (String × String) × ℕ :=
  match all_speaker_words with
  | [] => ([], [], 0)
  | w0 :: rest =>
    flushRun (aggLoop rest ⟨w0.speaker_raw, w0.start, [w0.word], [], [], 0⟩)

/-- One step of the adjacent-merge pass (engine.py:336-340). -/
def smoothStep (acc : List Seg) (seg : Seg) : List Seg :=
  match acc.getLast? with
  | some lastSeg =>
    if seg.speaker = lastSeg.speaker then
      acc.dropLast ++ [{ lastSeg with text := lastSeg.text ++ " " ++ seg.text }]
    else acc ++ [seg]
  | none => acc ++ [seg]

/-- Merge adjacent same-display-speaker segments (engine.py:334-340). -/
def smooth (final_segments : List Seg) : List Seg :=
  final_segments.foldl smoothStep []

/-- The `run_diarization` (engine.py:116-160) as seen by `transcribe_file`:
`pipeline_loaded` is whether the global diarization pipeline loaded (else
`[]` immediately); `cache` is `none` when no cache file exists and
`some r` when one exists with parse outcome `r` — an unreadable entry makes
`json.load` raise, which nothing here catches; `diarize` is the outcome of
the actual diarization computation (wav extraction, model call, cache
write), `.error` when any of it raises. -/
def run_diarization (pipeline_loaded : Bool)
    (cache : Option (Except String (List Turn)))
    (diarize : Except String (List Turn)) : Except String (List Turn) :=
  if !pipeline_loaded then .ok []
  else
    match cache with
    | some parsed => parsed
    | none => diarize

/-- The `transcribe_file` (engine.py:165-354), with collaborators as oracles:
`diar` is the outcome of `run_diarization` (its exception propagates to the
surrounding `try`), `duration` the `get_duration` result (consulted only
when the diarization chunks are empty), `extract i` whether ffmpeg produced
chunk `i`'s file, and `asr` the Whisper call for a chunk given its index,
start, duration and prompt.  Returns the final task dict and the
`(status, progress)` pairs published through `report`. -/
def transcribe_file (filename : String)
    (diar : Except String (List Turn)) (duration : ℚ)
    (extract : ℕ → Bool)
    (asr : ℕ → ℚ → ℚ → String → Except String (List PySeg)) :
    Task × List (String × ℤ) :=
  let reports0 : List (String × ℤ) := [("diarizing", 5)]
  match diar with
  | .error e => (⟨filename, "error", 5, [], some e⟩, reports0)
  | .ok timeline =>
    let reports1 := reports0 ++ [("transcribing", 10)]
    let chunks := chunksFor timeline duration
    match chunkLoop timeline extract asr chunks.length chunks 0 [] reports1 10 with
    | .error epr => (⟨filename, "error", epr.2.2, [], some epr.1⟩, epr.2.1)
    | .ok wrp =>
      let reports2 := wrp.2.1 ++ [("aligning", 95)]
      let final_segments := (finalGrouping wrp.1).1
      let smoothed := smooth final_segments
      (⟨filename, "completed", 100, smoothed, none⟩, reports2)

/-! ## Helper definitions and lemmas for the claims -/

/-- Clamped overlap of a word interval with a turn, as claim C1 words it:
`max(0, min(wordEnd, turn.end) − max(wordStart, turn.start))`. -/
def overlapQ (word_start word_end : ℚ) (t : Turn) : ℚ :=
  max 0 (min word_end t.«end» - max word_start t.start)

/-- Modelled from the spec (C1): the maximum overlap over all turns. -/
def maxOverlap (timeline : List Turn) (ws we : ℚ) : ℚ :=
  (timeline.map (overlapQ ws we)).foldr max 0

/-- Modelled from the spec (C1): the first turn in timeline order whose
overlap equals the maximum over all turns. -/
def firstMaxTurn (timeline : List Turn) (ws we : ℚ) : Option Turn :=
  timeline.find? (fun t => overlapQ ws we t = maxOverlap timeline ws we)

/-- Running maximum of the overlaps of `l` over a base value `a`. -/
def maxOvFrom (ws we : ℚ) (l : List Turn) (a : ℚ) : ℚ :=
  l.foldr (fun t m => max (overlapQ ws we t) m) a

def dedupAdjAux (prev : String) : List String → List String
  | [] => []
  | b :: l => if b = prev then dedupAdjAux prev l else b :: dedupAdjAux b l

/-- Collapse runs of equal adjacent labels (the raw-group label sequence of
a word stream). -/
def dedupAdj : List String → List String
  | [] => []
  | a :: l => a :: dedupAdjAux a l

/-- The label-minting step of a flush (engine.py:304-306 = 321-323), on the
`(speaker_map, speaker_counter)` pair alone. -/
def mintStep (mc : List (String × String) × ℕ) (r : String) :
    List (String × String) × ℕ :=
  if (mc.1.lookup r).isSome then mc
  else (mc.1 ++ [(r, "Speaker " ++ toString (mc.2 + 1))], mc.2 + 1)

def mintFold (labels : List String) (mc : List (String × String) × ℕ) :
    List (String × String) × ℕ :=
  labels.foldl mintStep mc

/-- First occurrences of `labels` appended to the already-seen `ds`. -/
def addDistinct (ds labels : List String) : List String :=
  labels.foldl (fun ds r => if r ∈ ds then ds else ds ++ [r]) ds

/-- The speaker map holding `Speaker (n+1)`, `Speaker (n+2)`, … for the
distinct labels `ds` in order. -/
def mintedMap : List String → ℕ → List (String × String)
  | [], _ => []
  | r :: rest, n => (r, "Speaker " ++ toString (n + 1)) :: mintedMap rest (n + 1)

/-- Progress value published after the (1-based) `j`-th of `total` chunks:
`10 + ⌊(j / total) · 80⌋`. -/
def pctAt (total : ℕ) (j : ℕ) : ℤ := 10 + ⌊((j : ℚ) / (total : ℚ)) * 80⌋

/-- The `("transcribing", pct)` reports published for `n` consecutive
unskipped chunks starting at index `i`. -/
def transReports (total i n : ℕ) : List (String × ℤ) :=
  (List.range n).map (fun k => ("transcribing", pctAt total (i + k + 1)))

lemma transReports_succ (total i n : ℕ) :
    transReports total i (n + 1)
      = ("transcribing", pctAt total (i + 1)) :: transReports total (i + 1) n := by
  simp only [transReports, List.range_succ_eq_map, List.map_cons, List.map_map]
  congr 1
  apply List.map_congr_left
  intro k _
  simp only [Function.comp]
  congr 2
  omega

/-- When every chunk has positive width, extraction always succeeds and the
ASR collaborator never raises, the chunk loop completes and publishes one
`("transcribing", pctAt ..)` report per chunk. -/
lemma chunkLoop_all_ok (timeline : List Turn)
    (f : ℕ → ℚ → ℚ → String → List PySeg) (total : ℕ) :
    ∀ (chunks : List Chunk) (i : ℕ) (words : List SpeakerWord)
      (reports : List (String × ℤ)) (pct : ℤ),
      (∀ c ∈ chunks, 0 < c.«end» - c.start) →
      ∃ w p, chunkLoop timeline (fun _ => true) (fun a b c d => .ok (f a b c d))
          total chunks i words reports pct
        = .ok (w, reports ++ transReports total i chunks.length, p) := by
  intro chunks
  induction chunks with
  | nil =>
    intro i words reports pct _
    exact ⟨words, pct, by simp [chunkLoop, transReports]⟩
  | cons c rest ih =>
    intro i words reports pct hpos
    have hc : 0 < c.«end» - c.start := hpos c (List.mem_cons_self c rest)
    have hrest : ∀ x ∈ rest, 0 < x.«end» - x.start :=
      fun x hx => hpos x (List.mem_cons_of_mem c hx)
    obtain ⟨w, p, hw⟩ := ih (i + 1)
      (words ++ (List.map (segWords timeline c.start)
        (f i c.start (c.«end» - c.start) (promptFor words))).flatten)
      (reports ++ [("transcribing", 10 + ⌊((i : ℚ) + 1) / (total : ℚ) * 80⌋)])
      (10 + ⌊((i : ℚ) + 1) / (total : ℚ) * 80⌋) hrest
    refine ⟨w, p, ?_⟩
    rw [chunkLoop]
    rw [if_neg (by linarith), if_neg (by simp)]
    dsimp only
    rw [hw]
    simp only [List.length_cons, transReports_succ]
    have hp : pctAt total (i + 1) = 10 + ⌊((i : ℚ) + 1) / (total : ℚ) * 80⌋ := by
      unfold pctAt
      push_cast
      ring_nf
    rw [hp]
    simp

lemma overlapQ_nonneg (ws we : ℚ) (t : Turn) : 0 ≤ overlapQ ws we t :=
  le_max_left _ _

/-- The inner-loop step (engine.py:98-104) is exactly a strict-record
update on the clamped overlap, provided the running best is nonnegative. -/
lemma bestStep_eq (ws we : ℚ) (acc : Option String × ℚ) (h : 0 ≤ acc.2) (t : Turn) :
    bestStep ws we acc t
      = if acc.2 < overlapQ ws we t then (some t.speaker, overlapQ ws we t)
        else acc := by
  obtain ⟨bs, bo⟩ := acc
  simp only at h
  by_cases h1 : min we t.«end» > max ws t.start
  · have hov : overlapQ ws we t = min we t.«end» - max ws t.start :=
      max_eq_right (by linarith)
    unfold bestStep
    dsimp only
    rw [if_pos h1, hov]
  · have hov : overlapQ ws we t = 0 :=
      max_eq_left (by have h2 := not_lt.mp h1; linarith)
    unfold bestStep
    dsimp only
    rw [if_neg h1, hov, if_neg (not_lt.mpr h)]

lemma maxOvFrom_cons (ws we : ℚ) (t : Turn) (l : List Turn) (a : ℚ) :
    maxOvFrom ws we (t :: l) a = max (overlapQ ws we t) (maxOvFrom ws we l a) := rfl

lemma maxOvFrom_base (ws we : ℚ) (l : List Turn) :
    ∀ a : ℚ, 0 ≤ a → maxOvFrom ws we l a = max (maxOvFrom ws we l 0) a := by
  induction l with
  | nil => intro a ha; simp [maxOvFrom, max_eq_right ha]
  | cons t l ih =>
    intro a ha
    rw [maxOvFrom_cons, maxOvFrom_cons, ih a ha, max_assoc]

lemma le_maxOvFrom (ws we : ℚ) (l : List Turn) (a : ℚ) : a ≤ maxOvFrom ws we l a := by
  induction l with
  | nil => exact le_refl a
  | cons t l ih => exact le_trans ih (le_max_right _ _)

/-- If no turn's overlap exceeds the running best, the loop leaves the
accumulator unchanged. -/
lemma best_loop_le (ws we : ℚ) :
    ∀ (l : List Turn) (bs : Option String) (bo : ℚ), 0 ≤ bo →
      maxOvFrom ws we l bo ≤ bo →
      l.foldl (bestStep ws we) (bs, bo) = (bs, bo) := by
  intro l
  induction l with
  | nil => intro bs bo _ _; rfl
  | cons t l ih =>
    intro bs bo hbo hle
    rw [maxOvFrom_cons] at hle
    have h1 : overlapQ ws we t ≤ bo := le_trans (le_max_left _ _) hle
    have h2 : maxOvFrom ws we l bo ≤ bo := le_trans (le_max_right _ _) hle
    rw [List.foldl_cons, bestStep_eq ws we (bs, bo) hbo t, if_neg (by simpa using h1)]
    exact ih bs bo hbo h2

/-- If some turn's overlap strictly exceeds the running best, the loop ends
on the first turn attaining the maximal overlap. -/
lemma best_loop_gt (ws we : ℚ) :
    ∀ (l : List Turn) (bs : Option String) (bo : ℚ), 0 ≤ bo →
      bo < maxOvFrom ws we l bo →
      ∃ t, l.find? (fun t => overlapQ ws we t = maxOvFrom ws we l bo) = some t ∧
        l.foldl (bestStep ws we) (bs, bo) = (some t.speaker, overlapQ ws we t) ∧
        overlapQ ws we t = maxOvFrom ws we l bo := by
  intro l
  induction l with
  | nil => intro bs bo hbo h; exact absurd h (lt_irrefl bo)
  | cons t l ih =>
    intro bs bo hbo h
    by_cases hb : bo < overlapQ ws we t
    · have hstep : bestStep ws we (bs, bo) t = (some t.speaker, overlapQ ws we t) := by
        rw [bestStep_eq ws we (bs, bo) hbo t, if_pos hb]
      by_cases h2 : overlapQ ws we t < maxOvFrom ws we l (overlapQ ws we t)
      · have hM : maxOvFrom ws we (t :: l) bo = maxOvFrom ws we l (overlapQ ws we t) := by
          rw [maxOvFrom_cons, maxOvFrom_base ws we l bo hbo,
            maxOvFrom_base ws we l _ (overlapQ_nonneg ws we t)]
          simp only [max_def]
          split_ifs <;> linarith
        obtain ⟨t2, hfind2, hfold2, heq2⟩ :=
          ih (some t.speaker) (overlapQ ws we t) (overlapQ_nonneg ws we t) h2
        refine ⟨t2, ?_, ?_, ?_⟩
        · rw [hM]
          rw [List.find?_cons_of_neg]
          · exact hfind2
          · simp only [decide_eq_true_eq]
            intro he
            rw [← he] at h2
            exact absurd h2 (lt_irrefl _)
        · rw [List.foldl_cons, hstep, hfold2]
        · rw [hM]; exact heq2
      · push_neg at h2
        have hfold : l.foldl (bestStep ws we) (some t.speaker, overlapQ ws we t)
            = (some t.speaker, overlapQ ws we t) :=
          best_loop_le ws we l (some t.speaker) (overlapQ ws we t)
            (overlapQ_nonneg ws we t) h2
        have hM : maxOvFrom ws we (t :: l) bo = overlapQ ws we t := by
          rw [maxOvFrom_cons]
          apply max_eq_left
          calc maxOvFrom ws we l bo = max (maxOvFrom ws we l 0) bo :=
                maxOvFrom_base ws we l bo hbo
            _ ≤ max (maxOvFrom ws we l 0) (overlapQ ws we t) := by
                apply max_le_max (le_refl _) (le_of_lt hb)
            _ = maxOvFrom ws we l (overlapQ ws we t) :=
                (maxOvFrom_base ws we l _ (overlapQ_nonneg ws we t)).symm
            _ ≤ overlapQ ws we t := h2
        refine ⟨t, ?_, ?_, ?_⟩
        · rw [hM]
          exact List.find?_cons_of_pos l (by simp)
        · rw [List.foldl_cons, hstep, hfold]
        · rw [hM]
    · push_neg at hb
      have hstep : bestStep ws we (bs, bo) t = (bs, bo) := by
        rw [bestStep_eq ws we (bs, bo) hbo t, if_neg (by simpa using hb)]
      have hM : maxOvFrom ws we (t :: l) bo = maxOvFrom ws we l bo := by
        rw [maxOvFrom_cons]
        exact max_eq_right (le_trans hb (le_maxOvFrom ws we l bo))
      rw [hM] at h
      obtain ⟨t2, hfind2, hfold2, heq2⟩ := ih bs bo hbo h
      refine ⟨t2, ?_, ?_, ?_⟩
      · rw [hM]
        rw [List.find?_cons_of_neg]
        · exact hfind2
        · simp only [decide_eq_true_eq]
          intro he
          rw [← he] at h
          exact absurd (lt_of_lt_of_le h hb) (lt_irrefl _)
      · rw [List.foldl_cons, hstep, hfold2]
      · rw [hM]; exact heq2

/-- Invariants of the chunk-building loop for a gapless, positive-width
timeline: the chunk list starts at the pending chunk start, ends at the
timeline's last turn end, is contiguous and has positive-width chunks. -/
lemma planChunks_spec :
    ∀ (l : List Turn) (cs : ℚ) (cur : List Turn) (e0 : Turn),
      l.head? = some e0 → cs ≤ e0.start →
      (∀ t ∈ l, t.start < t.«end») →
      l.Chain' (fun a b => b.start = a.«end») →
      (planChunks l cs cur).head?.map (fun c => c.start) = some cs ∧
      (planChunks l cs cur).getLast?.map (fun c => c.«end»)
        = l.getLast?.map (fun t => t.«end») ∧
      (planChunks l cs cur).Chain' (fun c1 c2 => c2.start = c1.«end») ∧
      (∀ c ∈ planChunks l cs cur, c.start < c.«end») := by
  intro l
  induction l with
  | nil => intro cs cur e0 h0; simp at h0
  | cons e rest ih =>
    intro cs cur e0 h0 hcs hpos hgap
    simp only [List.head?_cons, Option.some.injEq] at h0
    subst h0
    cases rest with
    | nil =>
      refine ⟨rfl, rfl, ?_, ?_⟩
      · exact List.chain'_singleton _
      · intro c hc
        simp only [planChunks, List.mem_singleton] at hc
        subst hc
        exact lt_of_le_of_lt hcs (hpos e (by simp))
    | cons e2 rest2 =>
      have hadj : e2.start = e.«end» := (List.chain'_cons.mp hgap).1
      have hgap2 : (e2 :: rest2).Chain' (fun a b => b.start = a.«end») :=
        (List.chain'_cons.mp hgap).2
      have hpos2 : ∀ t ∈ e2 :: rest2, t.start < t.«end» :=
        fun t ht => hpos t (List.mem_cons_of_mem e ht)
      have hce : cs < e.«end» := lt_of_le_of_lt hcs (hpos e (by simp))
      by_cases hclose : e.«end» - cs ≥ 30
      · obtain ⟨ihh, ihl, ihc, ihp⟩ :=
          ih e2.start [] e2 rfl (le_refl _) hpos2 hgap2
        rw [show planChunks (e :: e2 :: rest2) cs cur
            = ⟨cs, e.«end», cur ++ [e]⟩ :: planChunks (e2 :: rest2) e2.start []
          from by rw [planChunks, if_pos hclose]]
        refine ⟨rfl, ?_, ?_, ?_⟩
        · cases hpc : planChunks (e2 :: rest2) e2.start [] with
          | nil => rw [hpc] at ihh; simp at ihh
          | cons c cs2 =>
            rw [List.getLast?_cons_cons, List.getLast?_cons_cons]
            rw [hpc] at ihl
            exact ihl
        · rw [List.chain'_cons']
          refine ⟨?_, ihc⟩
          intro y hy
          cases hh : (planChunks (e2 :: rest2) e2.start []).head? with
          | none => rw [hh] at hy; simp at hy
          | some c =>
            rw [hh] at hy ihh
            have hy2 : c = y := by simpa using hy
            have ihh2 : c.start = e2.start := by simpa using ihh
            rw [← hy2, ihh2]
            exact hadj
        · intro c hc
          rcases List.mem_cons.mp hc with hc | hc
          · subst hc; exact hce
          · exact ihp c hc
      · have hcs2 : cs ≤ e2.start := by
          rw [hadj]; exact le_of_lt hce
        obtain ⟨ihh, ihl, ihc, ihp⟩ :=
          ih cs (cur ++ [e]) e2 rfl hcs2 hpos2 hgap2
        rw [show planChunks (e :: e2 :: rest2) cs cur
            = planChunks (e2 :: rest2) cs (cur ++ [e])
          from by rw [planChunks, if_neg hclose]]
        exact ⟨ihh, by rw [ihl, List.getLast?_cons_cons], ihc, ihp⟩

/-- When the ASR collaborator never raises, the chunk loop always completes
(skipped chunks notwithstanding). -/
lemma chunkLoop_ok_exists (timeline : List Turn) (extract : ℕ → Bool)
    (f : ℕ → ℚ → ℚ → String → List PySeg) (total : ℕ) :
    ∀ (chunks : List Chunk) (i : ℕ) (words : List SpeakerWord)
      (reports : List (String × ℤ)) (pct : ℤ),
      ∃ w r p, chunkLoop timeline extract (fun a b c d => .ok (f a b c d))
          total chunks i words reports pct = .ok (w, r, p) := by
  intro chunks
  induction chunks with
  | nil => intro i words reports pct; exact ⟨words, reports, pct, rfl⟩
  | cons c rest ih =>
    intro i words reports pct
    rw [chunkLoop]
    by_cases h1 : c.«end» - c.start ≤ 0
    · rw [if_pos h1]
      exact ih _ _ _ _
    · rw [if_neg h1]
      by_cases h2 : extract i
      · rw [if_neg (by simp [h2])]
        dsimp only
        exact ih _ _ _ _
      · rw [if_pos (by simp [h2])]
        exact ih _ _ _ _

/-- When the ASR collaborator always raises, the loop errors with its
message as soon as one chunk is actually processed (positive width and a
successful extraction). -/
lemma chunkLoop_err_exists (timeline : List Turn) (extract : ℕ → Bool)
    (m : String) (total : ℕ) :
    ∀ (chunks : List Chunk) (i : ℕ),
      (∃ j, ∃ h : j < chunks.length,
        0 < (chunks.get ⟨j, h⟩).«end» - (chunks.get ⟨j, h⟩).start
          ∧ extract (i + j)) →
      ∀ (words : List SpeakerWord) (reports : List (String × ℤ)) (pct : ℤ),
      ∃ r p, chunkLoop timeline extract (fun _ _ _ _ => .error m)
          total chunks i words reports pct = .error (m, r, p) := by
  intro chunks
  induction chunks with
  | nil =>
    intro i hex
    obtain ⟨j, hj, _⟩ := hex
    exact absurd hj (by simp)
  | cons c rest ih =>
    intro i hex words reports pct
    rw [chunkLoop]
    by_cases h1 : c.«end» - c.start ≤ 0
    · rw [if_pos h1]
      obtain ⟨j, hj, hjp, hje⟩ := hex
      cases j with
      | zero => exact absurd hjp (by simp only [List.get]; linarith)
      | succ j2 =>
        refine ih (i + 1) ⟨j2, by simpa using hj, ?_, ?_⟩ words reports pct
        · exact hjp
        · rw [show i + 1 + j2 = i + (j2 + 1) from by omega]
          exact hje
    · rw [if_neg h1]
      by_cases h2 : extract i
      · rw [if_neg (by simp [h2])]
        exact ⟨reports, pct, rfl⟩
      · rw [if_pos (by simp [h2])]
        obtain ⟨j, hj, hjp, hje⟩ := hex
        cases j with
        | zero => rw [Nat.add_zero] at hje; exact absurd hje h2
        | succ j2 =>
          refine ih (i + 1) ⟨j2, by simpa using hj, ?_, ?_⟩ words reports pct
          · exact hjp
          · rw [show i + 1 + j2 = i + (j2 + 1) from by omega]
            exact hje

/-- A flush only ever appends a segment whose cleaned text is non-empty. -/
lemma flushRun_texts (st : AggSt) (h : ∀ s ∈ st.segs, s.text ≠ "") :
    ∀ s ∈ (flushRun st).1, s.text ≠ "" := by
  intro s hs
  unfold flushRun at hs
  dsimp only at hs
  split at hs
  · rcases List.mem_append.mp hs with hs | hs
    · exact h s hs
    · rw [List.mem_singleton] at hs
      subst hs
      dsimp only
      rename_i htxt
      exact htxt
  · exact h s hs

/-- The aggregation loop preserves "all emitted texts are non-empty". -/
lemma aggLoop_texts :
    ∀ (ws : List SpeakerWord) (st : AggSt),
      (∀ s ∈ st.segs, s.text ≠ "") →
      ∀ s ∈ (aggLoop ws st).segs, s.text ≠ "" := by
  intro ws
  induction ws with
  | nil => intro st h; exact h
  | cons sw rest ih =>
    intro st h
    by_cases hsp : sw.speaker_raw = st.cur_raw
    · rw [aggLoop, if_pos hsp]
      exact ih _ h
    · rw [aggLoop, if_neg hsp]
      have hft := flushRun_texts st h
      generalize hfr : flushRun st = smc at hft ⊢
      exact ih _ hft

/-- Every segment produced by the final grouping has non-empty text. -/
lemma finalGrouping_texts (ws : List SpeakerWord) :
    ∀ s ∈ (finalGrouping ws).1, s.text ≠ "" := by
  cases ws with
  | nil => intro s hs; simp [finalGrouping] at hs
  | cons w0 rest =>
    unfold finalGrouping
    exact flushRun_texts _ (aggLoop_texts rest _ (by simp))

/-- One merge step keeps every text non-empty. -/
lemma smoothStep_texts (acc : List Seg) (seg : Seg)
    (h1 : ∀ s ∈ acc, s.text ≠ "") (h2 : seg.text ≠ "") :
    ∀ s ∈ smoothStep acc seg, s.text ≠ "" := by
  intro s hs
  unfold smoothStep at hs
  cases hlast : acc.getLast? with
  | none =>
    rw [hlast] at hs
    rcases List.mem_append.mp hs with hs | hs
    · exact h1 s hs
    · rw [List.mem_singleton] at hs; subst hs; exact h2
  | some lastSeg =>
    rw [hlast] at hs
    dsimp only at hs
    split at hs
    · rcases List.mem_append.mp hs with hs | hs
      · exact h1 s (List.mem_of_mem_dropLast hs)
      · rw [List.mem_singleton] at hs
        subst hs
        dsimp only
        intro hcontra
        have hlen := congrArg String.length hcontra
        rw [String.length_append, String.length_append] at hlen
        have hsp : (" " : String).length = 1 := rfl
        have hz : ("" : String).length = 0 := rfl
        omega
    · rcases List.mem_append.mp hs with hs | hs
      · exact h1 s hs
      · rw [List.mem_singleton] at hs; subst hs; exact h2
/-- One merge step keeps adjacent display labels distinct: merging changes
only the last text; appending is guarded by a label inequality. -/
lemma smoothStep_chain (acc : List Seg) (seg : Seg)
    (h : acc.Chain' (fun a b => a.speaker ≠ b.speaker)) :
    (smoothStep acc seg).Chain' (fun a b => a.speaker ≠ b.speaker) := by
  unfold smoothStep
  cases hlast : acc.getLast? with
  | none =>
    have hnil : acc = [] := List.getLast?_eq_none_iff.mp hlast
    subst hnil
    simp
  | some lastSeg =>
    obtain ⟨ys, rfl⟩ := List.getLast?_eq_some_iff.mp hlast
    dsimp only
    split
    · rw [List.dropLast_concat]
      rw [List.chain'_append] at h ⊢
      refine ⟨h.1, List.chain'_singleton _, ?_⟩
      intro x hx y hy
      simp only [List.head?_cons] at hy
      have hy2 : { lastSeg with text := lastSeg.text ++ " " ++ seg.text } = y := by
        simpa using hy
      rw [← hy2]
      exact h.2.2 x hx lastSeg (by simp)
    · rename_i hsp
      rw [List.chain'_append]
      refine ⟨h, List.chain'_singleton _, ?_⟩
      intro x hx y hy
      have hy2 : seg = y := by simpa using hy
      have hx2 : lastSeg = x := by
        rw [List.getLast?_concat] at hx
        simpa using hx
      rw [← hy2, ← hx2]
      intro hcontra
      exact hsp (hcontra.symm)

/-- The adjacent-merge fold, from a valid accumulator, yields non-empty
texts and pairwise-distinct adjacent display labels. -/
lemma smooth_invariant :
    ∀ (segs : List Seg) (acc : List Seg),
      (∀ s ∈ acc, s.text ≠ "") →
      acc.Chain' (fun a b => a.speaker ≠ b.speaker) →
      (∀ s ∈ segs, s.text ≠ "") →
      (∀ s ∈ segs.foldl smoothStep acc, s.text ≠ "") ∧
      (segs.foldl smoothStep acc).Chain' (fun a b => a.speaker ≠ b.speaker) := by
  intro segs
  induction segs with
  | nil => intro acc h1 h2 _; exact ⟨h1, h2⟩
  | cons seg rest ih =>
    intro acc h1 h2 h3
    rw [List.foldl_cons]
    exact ih (smoothStep acc seg)
      (smoothStep_texts acc seg h1 (h3 seg (List.mem_cons_self seg rest)))
      (smoothStep_chain acc seg h2)
      (fun s hs => h3 s (List.mem_cons_of_mem seg hs))

/-- The map/counter component of a flush is exactly `mintStep`. -/
lemma flushRun_map (st : AggSt) :
    (flushRun st).2 = mintStep (st.map, st.counter) st.cur_raw := rfl

lemma dedupAdj_cons_same (a : String) (l : List String) :
    dedupAdj (a :: a :: l) = dedupAdj (a :: l) := by
  simp [dedupAdj, dedupAdjAux]

lemma dedupAdj_cons_ne (a b : String) (l : List String) (h : b ≠ a) :
    dedupAdj (a :: b :: l) = a :: dedupAdj (b :: l) := by
  simp only [dedupAdj, dedupAdjAux]
  rw [if_neg h]

/-- The speaker map and counter after the aggregation loop and its final
flush are the mint-fold over the deduplicated-adjacent raw-label sequence,
i.e. over the raw labels of the flushed groups in flush order. -/
lemma aggLoop_flush_map :
    ∀ (ws : List SpeakerWord) (st : AggSt),
      (flushRun (aggLoop ws st)).2
        = mintFold (dedupAdj (st.cur_raw :: ws.map (fun w => w.speaker_raw)))
            (st.map, st.counter) := by
  intro ws
  induction ws with
  | nil =>
    intro st
    rw [aggLoop, flushRun_map]
    rfl
  | cons sw rest ih =>
    intro st
    by_cases hsp : sw.speaker_raw = st.cur_raw
    · rw [aggLoop, if_pos hsp, ih]
      simp only [List.map_cons, hsp, dedupAdj_cons_same]
    · rw [aggLoop, if_neg hsp]
      have h2 := ih ⟨sw.speaker_raw, sw.start, [sw.word],
        (flushRun st).1, (flushRun st).2.1, (flushRun st).2.2⟩
      dsimp only at h2
      rw [h2]
      simp only [List.map_cons, dedupAdj_cons_ne _ _ _ hsp, mintFold, List.foldl_cons]
      congr 1
/-- A raw label has an entry in the minted map iff it was already seen. -/
lemma lookup_mintedMap_isSome (r : String) :
    ∀ (ds : List String) (n : ℕ),
      ((mintedMap ds n).lookup r).isSome = true ↔ r ∈ ds := by
  intro ds
  induction ds with
  | nil => intro n; simp [mintedMap]
  | cons d rest ih =>
    intro n
    by_cases hr : r = d
    · subst hr
      simp [mintedMap, List.lookup]
    · have hbeq : (r == d) = false := beq_eq_false_iff_ne.mpr hr
      simp only [mintedMap, List.lookup, hbeq, List.mem_cons]
      rw [ih (n + 1)]
      simp [hr]

lemma mintedMap_append (r : String) :
    ∀ (ds : List String) (n : ℕ),
      mintedMap (ds ++ [r]) n
        = mintedMap ds n ++ [(r, "Speaker " ++ toString (n + ds.length + 1))] := by
  intro ds
  induction ds with
  | nil => intro n; simp [mintedMap]
  | cons d rest ih =>
    intro n
    have h2 := ih (n + 1)
    simp only [List.cons_append, mintedMap, List.append_eq]
    rw [h2, List.length_cons,
      show n + 1 + rest.length + 1 = n + (rest.length + 1) + 1 from by omega]

/-- Folding mint steps over a label sequence extends the minted map by the
labels' first occurrences, numbering them in encounter order. -/
lemma mintFold_minted :
    ∀ (labels ds : List String), ds.Nodup →
      mintFold labels (mintedMap ds 0, ds.length)
        = (mintedMap (addDistinct ds labels) 0, (addDistinct ds labels).length) := by
  intro labels
  induction labels with
  | nil => intro ds _; rfl
  | cons r rest ih =>
    intro ds hnd
    simp only [mintFold, List.foldl_cons, addDistinct]
    by_cases hr : r ∈ ds
    · rw [show mintStep (mintedMap ds 0, ds.length) r = (mintedMap ds 0, ds.length) from by
        unfold mintStep
        rw [if_pos (by rw [lookup_mintedMap_isSome]; exact hr)]]
      rw [if_pos hr]
      exact ih ds hnd
    · rw [show mintStep (mintedMap ds 0, ds.length) r
          = (mintedMap (ds ++ [r]) 0, (ds ++ [r]).length) from by
        unfold mintStep
        dsimp only
        rw [if_neg (fun hs => hr ((lookup_mintedMap_isSome r ds 0).mp hs))]
        rw [mintedMap_append]
        simp]
      rw [if_neg hr]
      exact ih (ds ++ [r]) (by
        rw [List.nodup_append]
        exact ⟨hnd, List.nodup_singleton r, by simpa using hr⟩)
lemma addDistinct_nodup :
    ∀ (labels ds : List String), ds.Nodup → (addDistinct ds labels).Nodup := by
  intro labels
  induction labels with
  | nil => intro ds h; exact h
  | cons r rest ih =>
    intro ds h
    simp only [addDistinct, List.foldl_cons]
    by_cases hr : r ∈ ds
    · rw [if_pos hr]
      exact ih ds h
    · rw [if_neg hr]
      exact ih _ (by
        rw [List.nodup_append]
        exact ⟨h, List.nodup_singleton r, by simpa using hr⟩)

/-- In a duplicate-free minted map, the `k`-th label looks up to
`Speaker (n+k+1)`. -/
lemma lookup_mintedMap_get :
    ∀ (ds : List String) (n : ℕ), ds.Nodup →
      ∀ (k : ℕ) (h : k < ds.length),
        (mintedMap ds n).lookup (ds.get ⟨k, h⟩)
          = some ("Speaker " ++ toString (n + k + 1)) := by
  intro ds
  induction ds with
  | nil => intro n _ k h; simp at h
  | cons d rest ih =>
    intro n hnd k h
    cases k with
    | zero => simp [mintedMap, List.lookup]
    | succ k2 =>
      have hk2 : k2 < rest.length := by simpa using h
      have hd : rest.get ⟨k2, hk2⟩ ≠ d := by
        intro he
        exact (List.nodup_cons.mp hnd).1 (he ▸ List.get_mem rest k2 hk2)
      simp only [List.get_cons_succ, mintedMap, List.lookup,
        beq_eq_false_iff_ne.mpr hd]
      rw [ih (n + 1) (List.nodup_cons.mp hnd).2 k2 hk2,
        show n + 1 + k2 + 1 = n + (k2 + 1) + 1 from by omega]

/-! ### Case-insensitive containment and whitespace normal form (for C9) -/

/-- Case-insensitive "starts with" on character lists (pattern first). -/
def startsCI : List Char → List Char → Bool
  | [], _ => true
  | _ :: _, [] => false
  | a :: w, c :: l => foldCh a = foldCh c && startsCI w l

/-- Case-insensitive substring test. -/
def containsCI (w l : List Char) : Bool :=
  match l with
  | [] => startsCI w []
  | _ :: rest => startsCI w l || containsCI w rest

/-- The first word of each hallucination pattern: a pattern can only match
where one of these appears (case-insensitively). -/
def kwWords : List String :=
  ["Редактор", "Корректор", "Субтитры", "Перевод", "Озвучка",
   "Все", "Продолжение", "Ставьте", "Подписывайтесь"]

/-- No hallucination keyword occurs (case-insensitively) in `s`. -/
def kwFree (s : String) : Prop :=
  ∀ w ∈ kwWords, containsCI w.data s.data = false

/-- The whitespace collapse `re.sub(r'\s+', ' ', ·)` on character lists. -/
def collapseWS (l : List Char) (prev : Bool) : List Char :=
  subLoop wsPlus [' '] l prev

/-- Whitespace-normal form: every whitespace character is a plain space and
no two whitespace characters are adjacent. -/
def normWS (l : List Char) : Prop :=
  (∀ c ∈ l, isSpCh c = true → c = ' ') ∧
  l.Chain' (fun a b => ¬(isSpCh a = true ∧ isSpCh b = true))

lemma rlit_chars_none :
    ∀ (cs : List Char) (s : List Char) (prev : Bool)
      (k : List Char → Bool → Option ℕ),
      startsCI cs s = false →
      matchRE (cs.foldr (fun c acc => .seq (.lit c) acc) .eps) s prev k = none := by
  intro cs
  induction cs with
  | nil => intro s prev k h; simp [startsCI] at h
  | cons c cs2 ih =>
    intro s prev k h
    cases s with
    | nil => rfl
    | cons x xs =>
      simp only [List.foldr_cons, matchRE]
      rw [startsCI] at h
      by_cases hf : foldCh x = foldCh c
      · rw [if_pos hf]
        have h2 : startsCI cs2 xs = false := by
          rcases Bool.and_eq_false_iff.mp h with h3 | h3
          · rw [decide_eq_false_iff_not] at h3
            exact absurd hf.symm h3
          · exact h3
        rw [ih xs (isWordCh x) _ h2]
      · rw [if_neg hf]

lemma rlit_none (w : String) (s : List Char) (prev : Bool)
    (k : List Char → Bool → Option ℕ) (h : startsCI w.data s = false) :
    matchRE (rlit w) s prev k = none :=
  rlit_chars_none w.data s prev k h

lemma startsCI_append_left :
    ∀ (w1 w2 s : List Char), startsCI (w1 ++ w2) s = true → startsCI w1 s = true := by
  intro w1
  induction w1 with
  | nil => intro w2 s _; rfl
  | cons a w ih =>
    intro w2 s h
    cases s with
    | nil => simp [startsCI] at h
    | cons c l =>
      rw [List.cons_append, startsCI] at h
      rw [startsCI]
      rcases (Bool.and_eq_true _ _).mp h with ⟨h1, h2⟩
      rw [h1, ih w2 l h2]
      rfl

lemma startsCI_of_ne_false (w s : List Char) (h : ¬ startsCI w s = true) :
    startsCI w s = false := by
  cases hc : startsCI w s
  · rfl
  · exact absurd hc h
lemma startsCI_false_of_head (w r2 t : List Char)
    (h : startsCI w t = false) : startsCI (w ++ r2) t = false := by
  cases hc : startsCI (w ++ r2) t
  · rfl
  · rw [startsCI_append_left w r2 t hc] at h
    simp at h

lemma startsCI_false_of_suffix (w : List Char) :
    ∀ (l t : List Char), t <:+ l → containsCI w l = false → startsCI w t = false := by
  intro l
  induction l with
  | nil =>
    intro t ht hc
    rw [List.suffix_nil.mp ht]
    exact hc
  | cons c rest ih =>
    intro t ht hc
    rw [containsCI] at hc
    rcases Bool.or_eq_false_iff.mp hc with ⟨h1, h2⟩
    rcases List.suffix_cons_iff.mp ht with rfl | ht2
    · exact h1
    · exact ih t ht2 h2

lemma subLoopF_fuel (r : RE) (repl : List Char) :
    ∀ (fuel fuel2 : ℕ) (s : List Char) (prev : Bool),
      s.length ≤ fuel → s.length ≤ fuel2 →
      subLoopF r repl fuel s prev = subLoopF r repl fuel2 s prev := by
  intro fuel
  induction fuel with
  | zero =>
    intro fuel2 s prev h1 _
    have hs : s = [] := List.length_eq_zero.mp (Nat.le_zero.mp h1)
    subst hs
    cases fuel2 <;> rfl
  | succ f ih =>
    intro fuel2 s prev h1 h2
    cases s with
    | nil => cases fuel2 <;> rfl
    | cons c rest =>
      cases fuel2 with
      | zero =>
        simp only [List.length_cons] at h2
        omega
      | succ f2 =>
        simp only [subLoopF]
        simp only [List.length_cons] at h1 h2
        cases hm : matchAt r (c :: rest) prev with
        | none => rw [ih f2 rest (isWordCh c) (by omega) (by omega)]
        | some n =>
          cases n with
          | zero => rw [ih f2 rest (isWordCh c) (by omega) (by omega)]
          | succ n2 =>
            dsimp only
            rw [ih f2 ((c :: rest).drop (n2 + 1)) (prevAt (c :: rest) prev (n2 + 1))
              (by simp only [List.length_drop, List.length_cons]; omega)
              (by simp only [List.length_drop, List.length_cons]; omega)]

lemma subLoop_cons (r : RE) (repl : List Char) (c : Char) (rest : List Char)
    (prev : Bool) :
    subLoop r repl (c :: rest) prev
      = match matchAt r (c :: rest) prev with
        | some 0 => repl ++ c :: subLoop r repl rest (isWordCh c)
        | some (n + 1) =>
          repl ++ subLoop r repl ((c :: rest).drop (n + 1))
            (prevAt (c :: rest) prev (n + 1))
        | none => c :: subLoop r repl rest (isWordCh c) := by
  unfold subLoop
  simp only [List.length_cons, subLoopF]
  cases hm : matchAt r (c :: rest) prev with
  | none => rfl
  | some n =>
    cases n with
    | zero => rfl
    | succ n2 =>
      dsimp only
      rw [subLoopF_fuel r repl rest.length ((c :: rest).drop (n2 + 1)).length
        ((c :: rest).drop (n2 + 1)) (prevAt (c :: rest) prev (n2 + 1))
        (by simp only [List.length_drop, List.length_cons]; omega)
        (le_refl _)]

lemma subLoop_id (r : RE) (repl : List Char) :
    ∀ (s : List Char) (prev : Bool),
      (∀ t prev2, t <:+ s → matchAt r t prev2 = none) →
      subLoop r repl s prev = s := by
  intro s
  induction s with
  | nil => intro prev _; rfl
  | cons c rest ih =>
    intro prev hm
    rw [subLoop_cons, hm (c :: rest) prev (List.suffix_refl _)]
    dsimp only
    rw [ih (isWordCh c) (fun t p2 ht => hm t p2 (ht.trans (List.suffix_cons c rest)))]

lemma pysub_id (p : RE) (s : String)
    (hm : ∀ t prev, t <:+ s.data → matchAt p t prev = none) :
    pysub p ("") s = s := by
  unfold pysub
  rw [show ("" : String).data = [] from rfl]
  rw [subLoop_id p [] s.data false hm]
lemma matchAt_bnd_rlit (L : String) (X : RE) (t : List Char) (prev : Bool)
    (h : startsCI L.data t = false) :
    matchAt (.seq .bnd (.seq (rlit L) X)) t prev = none := by
  unfold matchAt
  simp only [matchRE]
  split
  · exact rlit_none L t prev _ h
  · rfl

lemma matchRE_alt_none (a b : RE) (s : List Char) (prev : Bool)
    (k : List Char → Bool → Option ℕ)
    (ha : matchRE a s prev k = none) (hb : matchRE b s prev k = none) :
    matchRE (.alt a b) s prev k = none := by
  simp only [matchRE, ha, hb]

lemma matchAt_bnd_seq_none (Y : RE) (t : List Char) (prev : Bool)
    (hY : ∀ k, matchRE Y t prev k = none) :
    matchAt (.seq .bnd Y) t prev = none := by
  unfold matchAt
  simp only [matchRE]
  split
  · exact hY _
  · rfl

lemma matchAt_pat8_none (t : List Char) (prev : Bool)
    (hf1 : startsCI ("Все права защищены").data t = false)
    (hf2 : startsCI ("Продолжение следует").data t = false)
    (hf3 : startsCI ("Ставьте лайки").data t = false)
    (hf4 : startsCI ("Подписывайтесь на канал").data t = false) :
    matchAt pat8 t prev = none := by
  unfold pat8
  apply matchAt_bnd_seq_none
  intro k
  exact matchRE_alt_none _ _ _ _ _ (rlit_none _ t prev _ hf1)
    (matchRE_alt_none _ _ _ _ _ (rlit_none _ t prev _ hf2)
      (matchRE_alt_none _ _ _ _ _ (rlit_none _ t prev _ hf3)
        (rlit_none _ t prev _ hf4)))

lemma hallPats_none (p : RE) (hp : p ∈ hallucinationPats) (t : List Char)
    (prev : Bool)
    (h : ∀ w ∈ kwWords, startsCI w.data t = false) :
    matchAt p t prev = none := by
  have hred : startsCI ("Редактор субтитров").data t = false := by
    rw [show ("Редактор субтитров").data
        = ("Редактор").data ++ (" субтитров").data from by decide]
    exact startsCI_false_of_head _ _ t (h ("Редактор") (by simp [kwWords]))
  simp only [hallucinationPats, List.mem_cons, List.not_mem_nil, or_false] at hp
  rcases hp with rfl | rfl | rfl | rfl | rfl | rfl | rfl | rfl
  · exact matchAt_bnd_rlit _ _ t prev hred
  · exact matchAt_bnd_rlit _ _ t prev (h ("Корректор") (by simp [kwWords]))
  · exact matchAt_bnd_rlit _ _ t prev (h ("Субтитры") (by simp [kwWords]))
  · exact matchAt_bnd_rlit _ _ t prev (h ("Перевод") (by simp [kwWords]))
  · exact matchAt_bnd_rlit _ _ t prev (h ("Озвучка") (by simp [kwWords]))
  · exact matchAt_bnd_rlit _ _ t prev hred
  · exact matchAt_bnd_rlit _ _ t prev (h ("Корректор") (by simp [kwWords]))
  · refine matchAt_pat8_none t prev ?_ ?_ ?_ ?_
    · rw [show ("Все права защищены").data
          = ("Все").data ++ (" права защищены").data from by decide]
      exact startsCI_false_of_head _ _ t (h ("Все") (by simp [kwWords]))
    · rw [show ("Продолжение следует").data
          = ("Продолжение").data ++ (" следует").data from by decide]
      exact startsCI_false_of_head _ _ t (h ("Продолжение") (by simp [kwWords]))
    · rw [show ("Ставьте лайки").data
          = ("Ставьте").data ++ (" лайки").data from by decide]
      exact startsCI_false_of_head _ _ t (h ("Ставьте") (by simp [kwWords]))
    · rw [show ("Подписывайтесь на канал").data
          = ("Подписывайтесь").data ++ (" на канал").data from by decide]
      exact startsCI_false_of_head _ _ t (h ("Подписывайтесь") (by simp [kwWords]))

lemma starTries_const (s : List Char) (prev : Bool) (j : ℕ) :
    starTries s prev (fun _ _ => some 0) j = some j := by
  cases j with
  | zero => rfl
  | succ j2 => simp [starTries]

lemma matchAt_wsPlus (c : Char) (rest : List Char) (prev : Bool) :
    matchAt wsPlus (c :: rest) prev
      = if isSpCh c = true then some ((rest.takeWhile isSpCh).length + 1)
        else none := by
  unfold matchAt wsPlus rplus
  simp only [matchRE]
  by_cases h : isSpCh c = true
  · rw [if_pos h, if_pos h, starTries_const]
  · rw [if_neg h, if_neg h]

lemma drop_takeWhile_length (p : Char → Bool) :
    ∀ l : List Char, l.drop ((l.takeWhile p).length) = l.dropWhile p := by
  intro l
  induction l with
  | nil => rfl
  | cons c rest ih =>
    by_cases h : p c
    · rw [List.takeWhile_cons_of_pos h, List.dropWhile_cons_of_pos h,
        List.length_cons, List.drop_succ_cons, ih]
    · rw [List.takeWhile_cons_of_neg h, List.dropWhile_cons_of_neg h,
        List.length_nil, List.drop_zero]

lemma collapseWS_cons_sp (c : Char) (rest : List Char) (prev : Bool)
    (h : isSpCh c = true) :
    collapseWS (c :: rest) prev
      = ' ' :: collapseWS (rest.dropWhile isSpCh)
          (prevAt (c :: rest) prev ((rest.takeWhile isSpCh).length + 1)) := by
  unfold collapseWS
  rw [subLoop_cons, matchAt_wsPlus, if_pos h]
  dsimp only
  rw [List.drop_succ_cons, drop_takeWhile_length]
  rfl

lemma collapseWS_cons_nosp (c : Char) (rest : List Char) (prev : Bool)
    (h : isSpCh c = false) :
    collapseWS (c :: rest) prev = c :: collapseWS rest (isWordCh c) := by
  unfold collapseWS
  rw [subLoop_cons, matchAt_wsPlus,
    if_neg (by rw [h]; exact Bool.false_ne_true)]

lemma dropWhile_head_false (p : Char → Bool) :
    ∀ (l : List Char) (c : Char), (l.dropWhile p).head? = some c → p c = false := by
  intro l
  induction l with
  | nil => intro c h; simp at h
  | cons d rest ih =>
    intro c h
    by_cases hd : p d
    · rw [List.dropWhile_cons_of_pos hd] at h
      exact ih c h
    · rw [List.dropWhile_cons_of_neg hd, List.head?_cons, Option.some.injEq] at h
      rw [← h]
      exact Bool.of_not_eq_true hd

lemma collapseWS_head (l : List Char) (prev : Bool) :
    (collapseWS l prev).head?
      = l.head?.map (fun c => if isSpCh c = true then ' ' else c) := by
  cases l with
  | nil => rfl
  | cons c rest =>
    by_cases h : isSpCh c = true
    · rw [collapseWS_cons_sp c rest prev h]
      simp only [List.head?_cons, Option.map_some', if_pos h]
    · rw [collapseWS_cons_nosp c rest prev (Bool.of_not_eq_true h)]
      simp only [List.head?_cons, Option.map_some', if_neg h]

lemma collapseWS_normP :
    ∀ (n : ℕ) (l : List Char), l.length ≤ n → ∀ prev, normWS (collapseWS l prev) := by
  intro n
  induction n with
  | zero =>
    intro l hl prev
    rw [List.length_eq_zero.mp (Nat.le_zero.mp hl)]
    exact ⟨fun c hc => absurd hc (List.not_mem_nil c), List.chain'_nil⟩
  | succ n ih =>
    intro l hl prev
    cases l with
    | nil => exact ⟨fun c hc => absurd hc (List.not_mem_nil c), List.chain'_nil⟩
    | cons c rest =>
      simp only [List.length_cons] at hl
      by_cases h : isSpCh c = true
      · rw [collapseWS_cons_sp c rest prev h]
        have hdrop : (rest.dropWhile isSpCh).length ≤ n :=
          le_trans (List.IsSuffix.length_le (List.dropWhile_suffix isSpCh)) (by omega)
        obtain ⟨hm, hc⟩ := ih (rest.dropWhile isSpCh) hdrop
          (prevAt (c :: rest) prev ((rest.takeWhile isSpCh).length + 1))
        refine ⟨?_, ?_⟩
        · intro d hd hsp
          rcases List.mem_cons.mp hd with rfl | hd2
          · rfl
          · exact hm d hd2 hsp
        · rw [List.chain'_cons']
          refine ⟨?_, hc⟩
          intro y hy hcontra
          rw [collapseWS_head] at hy
          cases hh : (rest.dropWhile isSpCh).head? with
          | none =>
            rw [hh, Option.map_none'] at hy
            exact absurd hy (Option.not_mem_none y)
          | some d =>
            rw [hh, Option.map_some'] at hy
            have hd := dropWhile_head_false isSpCh rest d hh
            have : y = d := by
              have : (if isSpCh d = true then ' ' else d) = y := by simpa using hy
              rw [← this, if_neg (by rw [hd]; exact Bool.false_ne_true)]
            rw [this] at hcontra
            rw [hcontra.2] at hd
            cases hd
      · have hf : isSpCh c = false := Bool.of_not_eq_true h
        rw [collapseWS_cons_nosp c rest prev hf]
        obtain ⟨hm, hc⟩ := ih rest (by omega) (isWordCh c)
        refine ⟨?_, ?_⟩
        · intro d hd hsp
          rcases List.mem_cons.mp hd with rfl | hd2
          · rw [hsp] at hf; cases hf
          · exact hm d hd2 hsp
        · rw [List.chain'_cons']
          refine ⟨?_, hc⟩
          intro y _ hcontra
          rw [hcontra.1] at hf
          cases hf

lemma collapseWS_id :
    ∀ (l : List Char) (prev : Bool), normWS l → collapseWS l prev = l := by
  intro l
  induction l with
  | nil => intro prev _; rfl
  | cons c rest ih =>
    intro prev ⟨hm, hc⟩
    by_cases h : isSpCh c = true
    · have hsp : c = ' ' := hm c (List.mem_cons_self c rest) h
      rw [collapseWS_cons_sp c rest prev h]
      have hdw : rest.dropWhile isSpCh = rest := by
        cases rest with
        | nil => rfl
        | cons d rest2 =>
          have hd : ¬ isSpCh d = true := by
            intro hd
            exact (List.chain'_cons.mp hc).1 ⟨h, hd⟩
          exact List.dropWhile_cons_of_neg hd
      rw [hdw, ih _ ⟨fun d hd => hm d (List.mem_cons_of_mem c hd),
        (List.chain'_cons'.mp hc).2⟩, hsp]
    · rw [collapseWS_cons_nosp c rest prev (Bool.of_not_eq_true h),
        ih _ ⟨fun d hd => hm d (List.mem_cons_of_mem c hd),
          (List.chain'_cons'.mp hc).2⟩]
lemma dropWhile_eq_self_of_head (p : Char → Bool) (l : List Char)
    (h : ∀ c, l.head? = some c → p c = false) : l.dropWhile p = l := by
  cases l with
  | nil => rfl
  | cons c rest =>
    exact List.dropWhile_cons_of_neg (by
      rw [h c (List.head?_cons)]
      exact Bool.false_ne_true)

lemma pystrip_head_false (l : List Char) (c : Char)
    (h : (pystrip l).head? = some c) : isSpCh c = false := by
  unfold pystrip at h
  rw [List.head?_reverse] at h
  cases hB : ((l.dropWhile isSpCh).reverse.dropWhile isSpCh) with
  | nil => rw [hB] at h; simp at h
  | cons b B2 =>
    rw [hB] at h
    obtain ⟨ys, hys⟩ := List.getLast?_eq_some_iff.mp h
    have hsuf : (b :: B2) <:+ (l.dropWhile isSpCh).reverse :=
      hB ▸ List.dropWhile_suffix isSpCh
    obtain ⟨t, ht⟩ := hsuf
    have hlast : (l.dropWhile isSpCh).reverse.getLast? = some c := by
      rw [← ht, hys]
      rw [show t ++ (ys ++ [c]) = (t ++ ys) ++ [c] from by simp]
      exact List.getLast?_concat _
    rw [List.getLast?_reverse] at hlast
    exact dropWhile_head_false isSpCh l c hlast

lemma pystrip_idem (l : List Char) : pystrip (pystrip l) = pystrip l := by
  have h1 : (pystrip l).dropWhile isSpCh = pystrip l :=
    dropWhile_eq_self_of_head _ _ (fun c hc => pystrip_head_false l c hc)
  have h2 : (pystrip l).reverse.dropWhile isSpCh = (pystrip l).reverse := by
    rw [show (pystrip l).reverse
        = (l.dropWhile isSpCh).reverse.dropWhile isSpCh from by
      rw [pystrip, List.reverse_reverse]]
    exact dropWhile_eq_self_of_head _ _ (fun c hc => dropWhile_head_false _ _ c hc)
  rw [pystrip, h1, h2, List.reverse_reverse]

lemma normWS_suffix (l t : List Char) (h : normWS l) (hs : t <:+ l) : normWS t := by
  obtain ⟨u, rfl⟩ := hs
  refine ⟨fun c hc hsp => h.1 c (List.mem_append_right u hc) hsp, ?_⟩
  exact ((List.chain'_append.mp h.2).2).1

lemma normWS_reverse (l : List Char) (h : normWS l) : normWS l.reverse := by
  refine ⟨fun c hc hsp => h.1 c (List.mem_reverse.mp hc) hsp, ?_⟩
  rw [List.chain'_reverse]
  exact List.Chain'.imp (fun a b hab hc => hab ⟨hc.2, hc.1⟩) h.2

lemma normWS_pystrip (l : List Char) (h : normWS l) : normWS (pystrip l) := by
  unfold pystrip
  apply normWS_reverse
  apply normWS_suffix _ _ _ (List.dropWhile_suffix isSpCh)
  apply normWS_reverse
  exact normWS_suffix _ _ h (List.dropWhile_suffix isSpCh)
lemma containsCI_nil_pat : ∀ l : List Char, containsCI [] l = true := by
  intro l
  cases l with
  | nil => rfl
  | cons c rest => rfl

lemma startsCI_append_textR :
    ∀ (w t v : List Char), startsCI w t = true → startsCI w (t ++ v) = true := by
  intro w
  induction w with
  | nil => intro t v _; rfl
  | cons a w2 ih =>
    intro t v h
    cases t with
    | nil => simp [startsCI] at h
    | cons c t2 =>
      rw [List.cons_append, startsCI]
      rw [startsCI] at h
      rcases (Bool.and_eq_true _ _).mp h with ⟨h1, h2⟩
      rw [h1, ih t2 v h2]
      rfl

lemma containsCI_append_textR :
    ∀ (t : List Char) (w v : List Char),
      containsCI w t = true → containsCI w (t ++ v) = true := by
  intro t
  induction t with
  | nil =>
    intro w v h
    rw [containsCI] at h
    cases w with
    | nil => exact containsCI_nil_pat v
    | cons a w2 => simp [startsCI] at h
  | cons c t2 ih =>
    intro w v h
    rw [containsCI] at h
    rw [List.cons_append, containsCI]
    rcases Bool.or_eq_true_iff.mp h with h1 | h1
    · have hst := startsCI_append_textR w (c :: t2) v h1
      rw [List.cons_append] at hst
      rw [hst]
      rfl
    · rw [ih w v h1]
      simp

lemma containsCI_append_textL :
    ∀ (u : List Char) (w x : List Char),
      containsCI w x = true → containsCI w (u ++ x) = true := by
  intro u
  induction u with
  | nil => intro w x h; exact h
  | cons a u2 ih =>
    intro w x h
    rw [List.cons_append, containsCI, ih w x h]
    simp

lemma containsCI_of_suffix (w t l : List Char) (hs : t <:+ l)
    (h : containsCI w t = true) : containsCI w l = true := by
  obtain ⟨u, rfl⟩ := hs
  exact containsCI_append_textL u w t h

lemma containsCI_pystrip (w l : List Char)
    (h : containsCI w (pystrip l) = true) : containsCI w l = true := by
  have hA : l = l.takeWhile isSpCh ++ l.dropWhile isSpCh :=
    (List.takeWhile_append_dropWhile isSpCh l).symm
  have hB : (l.dropWhile isSpCh).reverse
      = ((l.dropWhile isSpCh).reverse.takeWhile isSpCh)
        ++ ((l.dropWhile isSpCh).reverse.dropWhile isSpCh) :=
    (List.takeWhile_append_dropWhile isSpCh _).symm
  have hA2 : l.dropWhile isSpCh
      = pystrip l ++ ((l.dropWhile isSpCh).reverse.takeWhile isSpCh).reverse := by
    have := congrArg List.reverse hB
    rw [List.reverse_reverse, List.reverse_append] at this
    exact this
  rw [hA, hA2]
  apply containsCI_append_textL
  apply containsCI_append_textR
  exact h
lemma collapseWS_nil (prev : Bool) : collapseWS [] prev = [] := rfl

lemma startsCI_collapse :
    ∀ (w : List Char), (∀ c ∈ w, isSpCh (foldCh c) = false) →
    ∀ (l : List Char) (prev : Bool),
      startsCI w (collapseWS l prev) = true → startsCI w l = true := by
  intro w
  induction w with
  | nil => intro _ l prev _; rfl
  | cons a w2 ih =>
    intro hw l prev h
    have ha : isSpCh (foldCh a) = false := hw a (List.mem_cons_self a w2)
    have hane : foldCh a ≠ ' ' := by
      intro he
      rw [he] at ha
      exact absurd ha (by decide)
    cases l with
    | nil =>
      rw [collapseWS_nil] at h
      exact absurd h (by simp [startsCI])
    | cons c rest =>
      by_cases hc : isSpCh c = true
      · rw [collapseWS_cons_sp c rest prev hc] at h
        rw [startsCI] at h
        rcases (Bool.and_eq_true _ _).mp h with ⟨h1, _⟩
        have h1b : foldCh a = foldCh ' ' := of_decide_eq_true h1
        rw [show foldCh ' ' = ' ' from by decide] at h1b
        exact absurd h1b hane
      · have hc2 : isSpCh c = false := Bool.of_not_eq_true hc
        rw [collapseWS_cons_nosp c rest prev hc2] at h
        rw [startsCI] at h ⊢
        rcases (Bool.and_eq_true _ _).mp h with ⟨h1, h2⟩
        rw [h1, ih (fun x hx => hw x (List.mem_cons_of_mem a hx)) rest (isWordCh c) h2]
        rfl

lemma containsCI_collapse_aux (w : List Char) (hwne : w ≠ [])
    (hw : ∀ c ∈ w, isSpCh (foldCh c) = false) :
    ∀ (n : ℕ) (l : List Char), l.length ≤ n → ∀ (prev : Bool),
      containsCI w (collapseWS l prev) = true → containsCI w l = true := by
  intro n
  induction n with
  | zero =>
    intro l hl prev h
    have hnil : l = [] := List.length_eq_zero.mp (Nat.le_zero.mp hl)
    subst hnil
    rw [collapseWS_nil] at h
    cases w with
    | nil => exact absurd rfl hwne
    | cons a w2 => exact absurd h (by simp [containsCI, startsCI])
  | succ n ih =>
    intro l hl prev h
    cases l with
    | nil =>
      rw [collapseWS_nil] at h
      cases w with
      | nil => exact absurd rfl hwne
      | cons a w2 => exact absurd h (by simp [containsCI, startsCI])
    | cons c rest =>
      simp only [List.length_cons] at hl
      by_cases hc : isSpCh c = true
      · rw [collapseWS_cons_sp c rest prev hc] at h
        rw [containsCI] at h
        have h1 : startsCI w (' ' :: collapseWS (rest.dropWhile isSpCh)
            (prevAt (c :: rest) prev ((rest.takeWhile isSpCh).length + 1))) = false := by
          cases w with
          | nil => exact absurd rfl hwne
          | cons a w2 =>
            rw [startsCI]
            have ha : isSpCh (foldCh a) = false := hw a (List.mem_cons_self a w2)
            have hd : decide (foldCh a = foldCh ' ') = false := by
              apply decide_eq_false
              intro he
              rw [show foldCh ' ' = ' ' from by decide] at he
              rw [he] at ha
              exact absurd ha (by decide)
            rw [hd]
            rfl
        rw [h1, Bool.false_or] at h
        have h2 := ih (rest.dropWhile isSpCh)
          (Nat.le_trans (List.IsSuffix.length_le (List.dropWhile_suffix isSpCh))
            (by omega)) _ h
        have h3 : containsCI w rest = true :=
          containsCI_of_suffix w (rest.dropWhile isSpCh) rest
            (List.dropWhile_suffix isSpCh) h2
        rw [containsCI, h3]
        simp
      · have hc2 : isSpCh c = false := Bool.of_not_eq_true hc
        rw [collapseWS_cons_nosp c rest prev hc2] at h
        rw [containsCI] at h ⊢
        rcases Bool.or_eq_true_iff.mp h with h1 | h1
        · have hs := startsCI_collapse w hw (c :: rest) prev
            (by rw [collapseWS_cons_nosp c rest prev hc2]; exact h1)
          rw [hs]
          simp
        · rw [ih rest (by omega) _ h1]
          simp
lemma subs_fold_id (s : String) (h : kwFree s) :
    hallucinationPats.foldl (fun acc p => pysub p ("") acc) s = s := by
  have hid : ∀ p ∈ hallucinationPats, pysub p ("") s = s := by
    intro p hp
    apply pysub_id
    intro t prev ht
    apply hallPats_none p hp t prev
    intro w hw
    exact startsCI_false_of_suffix w.data s.data t ht (h w hw)
  simp only [hallucinationPats, List.foldl_cons, List.foldl_nil]
  rw [hid pat1 (by simp [hallucinationPats]), hid pat2 (by simp [hallucinationPats]),
    hid pat3 (by simp [hallucinationPats]), hid pat4 (by simp [hallucinationPats]),
    hid pat5 (by simp [hallucinationPats]), hid pat6 (by simp [hallucinationPats]),
    hid pat7 (by simp [hallucinationPats]), hid pat8 (by simp [hallucinationPats])]

lemma clean_eq (s : String) :
    clean_hallucinations s
      = String.mk (pystrip (collapseWS
          (hallucinationPats.foldl (fun acc p => pysub p ("") acc) s).data false)) := by
  simp only [clean_hallucinations]
  rw [collapseWS, pysub]

lemma kw_side : ∀ w ∈ kwWords, w.data ≠ [] ∧ ∀ c ∈ w.data, isSpCh (foldCh c) = false := by
  decide

lemma kwFree_clean (s : String) (h : kwFree s) :
    kwFree (clean_hallucinations s) := by
  intro w hw
  obtain ⟨hwne, hwch⟩ := kw_side w hw
  rw [clean_eq, subs_fold_id s h]
  show containsCI w.data (pystrip (collapseWS s.data false)) = false
  cases hb : containsCI w.data (pystrip (collapseWS s.data false)) with
  | false => rfl
  | true =>
    have h2 := containsCI_pystrip w.data (collapseWS s.data false) hb
    have h3 := containsCI_collapse_aux w.data hwne hwch s.data.length s.data
      (le_refl _) false h2
    exact absurd ((h w hw).symm.trans h3) (by decide)

/-! ## Claims -/

/-- C1 (counterexample): for the timeline `[(0,100,""), (200,201,"Y")]` and
word `(99,250)` the maximal overlap (1) is first attained by the turn with
the EMPTY speaker label, so the claim requires "", but
`get_speaker_for_word` returns "Y": Python's `if best_speaker:` treats the
empty-string label as falsy and falls through to the nearest-midpoint
fallback, which picks the other turn. -/
theorem C1_counterexample :
    get_speaker_for_word [⟨0, 100, ""⟩, ⟨200, 201, "Y"⟩] 99 250 = "Y" ∧
    (firstMaxTurn [⟨0, 100, ""⟩, ⟨200, 201, "Y"⟩] 99 250).map (fun t => t.speaker)
      = some ("") ∧
    0 < overlapQ 99 250 ⟨0, 100, ""⟩ ∧
    ("Y" : String) ≠ "" := by
  refine ⟨?_, ?_, by norm_num [overlapQ, min_def, max_def], by simp⟩
  · norm_num [get_speaker_for_word, bestStep, minByKey, nearKey, min_def, max_def,
      show |(51:ℚ)/2| = 51/2 from abs_of_nonneg (by norm_num),
      show |(53:ℚ)/2| = 53/2 from abs_of_nonneg (by norm_num),
      show |(349:ℚ)/2| = 349/2 from abs_of_nonneg (by norm_num),
      show |(149:ℚ)/2| = 149/2 from abs_of_nonneg (by norm_num)]
  · norm_num [firstMaxTurn, maxOverlap, overlapQ, min_def, max_def, List.find?]

/-- C1 (amended): whenever some turn has strictly positive overlap with the
word, `get_speaker_for_word` returns the speaker of the first turn in
timeline order whose overlap `max(0, min(wordEnd, turn.end) −
max(wordStart, turn.start))` equals the maximum over all turns — PROVIDED
that turn's speaker label is non-empty (an empty winning label is treated
as "no best speaker" by Python truthiness and the resolver falls back to
the nearest-turn rule instead).  Ties go to the earlier-encountered turn,
and a word strictly inside exactly one turn gets that turn's speaker. -/
theorem C1_resolver (timeline : List Turn) (ws we : ℚ) (t : Turn)
    (hpos : 0 < maxOverlap timeline ws we)
    (hfind : firstMaxTurn timeline ws we = some t)
    (hs : t.speaker ≠ "") :
    get_speaker_for_word timeline ws we = t.speaker := by
  cases timeline with
  | nil => simp [firstMaxTurn] at hfind
  | cons t0 rest =>
    have hmm : maxOverlap (t0 :: rest) ws we = maxOvFrom ws we (t0 :: rest) 0 := by
      simp [maxOverlap, maxOvFrom, List.foldr_map]
    obtain ⟨t2, hfind2, hfold2, heq2⟩ :=
      best_loop_gt ws we (t0 :: rest) none 0 (le_refl 0) (by rw [← hmm]; exact hpos)
    have ht : t2 = t := by
      unfold firstMaxTurn at hfind
      rw [hmm] at hfind
      rw [hfind] at hfind2
      exact (Option.some.inj hfind2).symm
    unfold get_speaker_for_word
    dsimp only
    rw [hfold2, ht]
    simp [hs]

/-- Witness for C1: the spec scenario of two touching turns and the word
`(9,11)` — an exact tie resolved to the first turn, labelled "X". -/
theorem C1_resolver_witness :
    get_speaker_for_word [⟨0, 10, "X"⟩, ⟨10, 20, "Y"⟩] 9 11
      = (⟨(0:ℚ), (10:ℚ), "X"⟩ : Turn).speaker :=
  C1_resolver [⟨0, 10, "X"⟩, ⟨10, 20, "Y"⟩] 9 11 ⟨0, 10, "X"⟩
    (by norm_num [maxOverlap, overlapQ, min_def, max_def])
    (by norm_num [firstMaxTurn, maxOverlap, overlapQ, min_def, max_def, List.find?])
    (by simp)

/-- C2 (counterexample): on the timeline `[(0,5,A), (5,9,B), (9,40,A)]` the
planner emits ONE chunk `[0,40]`, not the claimed two chunks `[0,9)` and
`[9,40)`: a chunk closes only when the elapsed span reaches 30 s or the
timeline ends, and the 30 s target is first reached at the final turn's
end, so nothing closes at 9. -/
theorem C2_counterexample :
    (chunksFor [⟨0, 5, "A"⟩, ⟨5, 9, "B"⟩, ⟨9, 40, "A"⟩] 40).map
        (fun c => (c.start, c.«end»))
        = [((0:ℚ), (40:ℚ))] ∧
      [((0:ℚ), (40:ℚ))] ≠ [((0:ℚ), (9:ℚ)), ((9:ℚ), (40:ℚ))] := by
  refine ⟨?_, by simp⟩
  norm_num [chunksFor, naturalChunks, planChunks]

/-- C2 (amended): on the timeline `[(0,5,A), (5,9,B), (9,40,A)]` the chunk
planner produces exactly ONE chunk, `[0,40]`, holding all three turns; in
particular it never splits inside the final 31-second turn even though that
turn makes the chunk exceed the 30-second target width. -/
theorem C2_amended :
    chunksFor [⟨0, 5, "A"⟩, ⟨5, 9, "B"⟩, ⟨9, 40, "A"⟩] 40
      = [⟨0, 40, [⟨0, 5, "A"⟩, ⟨5, 9, "B"⟩, ⟨9, 40, "A"⟩]⟩] := by
  norm_num [chunksFor, naturalChunks, planChunks]

/-- C6: with an empty diarization timeline and a recording duration
`D > 0`, the pipeline falls back to fixed-width chunking, producing exactly
`⌈D/30⌉` chunks, chunk `i` spanning `[30 i, min(30 (i+1), D))`, the last
ending exactly at `D`; for `D = 65` this is `[0,30), [30,60), [60,65)`. -/
theorem C6_fallback (D : ℚ) (hD : 0 < D) :
    chunksFor [] D = fallbackChunks D ∧
    (fallbackChunks D).length = Int.toNat ⌈D / 30⌉ ∧
    (∀ i, ∀ h : i < (fallbackChunks D).length,
      ((fallbackChunks D).get ⟨i, h⟩).start = 30 * (i : ℚ) ∧
      ((fallbackChunks D).get ⟨i, h⟩).«end» = min (30 * ((i : ℚ) + 1)) D) ∧
    ((fallbackChunks D).getLast?).map (fun c => c.«end») = some D ∧
    (chunksFor [] 65).map (fun c => (c.start, c.«end»))
      = [((0:ℚ), (30:ℚ)), ((30:ℚ), (60:ℚ)), ((60:ℚ), (65:ℚ))] := by
  have hceil : (0:ℤ) < ⌈D / 30⌉ := by
    apply Int.ceil_pos.mpr
    positivity
  have hn : ((Int.toNat ⌈D / 30⌉ : ℤ) : ℚ) = ((⌈D / 30⌉ : ℤ) : ℚ) := by
    rw [Int.toNat_of_nonneg (le_of_lt hceil)]
  refine ⟨by simp [chunksFor, naturalChunks],
    by simp only [fallbackChunks, List.length_map, List.length_range], ?_, ?_, ?_⟩
  · intro i h
    simp [fallbackChunks]
  · have hpos : 0 < Int.toNat ⌈D / 30⌉ := by omega
    obtain ⟨m, hm⟩ : ∃ m, Int.toNat ⌈D / 30⌉ = m + 1 :=
      ⟨_, (Nat.succ_pred_eq_of_pos hpos).symm⟩
    have hD30 : D ≤ 30 * ((m : ℚ) + 1) := by
      have h1 : D / 30 ≤ ((⌈D / 30⌉ : ℤ) : ℚ) := Int.le_ceil _
      have h2 : ((⌈D / 30⌉ : ℤ) : ℚ) = (m : ℚ) + 1 := by
        rw [← hn, hm]
        push_cast
        ring
      nlinarith
    simp only [fallbackChunks, hm, List.range_succ, List.map_append, List.map_cons,
      List.map_nil, List.getLast?_append, List.getLast?_cons, List.getLast?_nil,
      Option.map_some]
    simp [min_eq_right hD30]
  · have h2 : ⌈(13:ℚ) / 6⌉ = 3 := by
      rw [Int.ceil_eq_iff]
      norm_num
    norm_num [chunksFor, naturalChunks, fallbackChunks, h2,
      show List.range (Int.toNat 3) = [0, 1, 2] from rfl, min_def]

/-- Witness for C6 at `D = 65`. -/
theorem C6_fallback_witness :
    (chunksFor [] 65).map (fun c => (c.start, c.«end»))
      = [((0:ℚ), (30:ℚ)), ((30:ℚ), (60:ℚ)), ((60:ℚ), (65:ℚ))] :=
  (C6_fallback 65 (by norm_num)).2.2.2.2

/-- C3 (counterexample): in a fallback run with one single 30-second chunk,
the progress published after completing chunk 1 of 1 is 90, whereas the
claimed formula `10 + ⌊90 · completed/total⌋` gives 100: the code uses a
factor of 80 (engine.py:288), not 90. -/
theorem C3_counterexample :
    (transcribe_file ("f.mp3") (.ok []) 30 (fun _ => true)
        (fun _ _ _ _ => .ok [])).2
      = [("diarizing", 5), ("transcribing", 10), ("transcribing", 90), ("aligning", 95)]
      ∧ (10 + ⌊((1:ℚ) / 1) * 90⌋ : ℤ) = 100 ∧ (90 : ℤ) ≠ 100 := by
  have hch : chunksFor [] (30:ℚ) = [⟨0, 30, []⟩] := by
    norm_num [chunksFor, naturalChunks, fallbackChunks,
      show List.range 1 = [0] from rfl,
      show Int.toNat ⌈(30:ℚ)/30⌉ = 1 by norm_num [Int.ceil_one]]
  refine ⟨?_, by norm_num, by norm_num⟩
  unfold transcribe_file
  dsimp only
  rw [hch]
  norm_num [chunkLoop, finalGrouping, smooth]

/-- C3 (amended): during the transcribing phase of a run in which no chunk
is skipped (all chunks have positive width, extraction always succeeds) and
the ASR collaborator never raises, the published progress after completing
chunk `k` of `total` equals `10 + ⌊80 · k/total⌋` (`pctAt`), advancing
linearly from 10 to 90 — the factor is 80, not the claimed 90. -/
theorem C3_progress (filename : String) (timeline : List Turn) (duration : ℚ)
    (f : ℕ → ℚ → ℚ → String → List PySeg)
    (hpos : ∀ c ∈ chunksFor timeline duration, 0 < c.«end» - c.start) :
    (transcribe_file filename (.ok timeline) duration (fun _ => true)
        (fun a b c d => .ok (f a b c d))).2
      = [("diarizing", 5), ("transcribing", 10)]
        ++ transReports (chunksFor timeline duration).length 0
            (chunksFor timeline duration).length
        ++ [("aligning", 95)] := by
  obtain ⟨w, p, hw⟩ := chunkLoop_all_ok timeline f (chunksFor timeline duration).length
    (chunksFor timeline duration) 0 [] ([("diarizing", 5)] ++ [("transcribing", 10)]) 10 hpos
  unfold transcribe_file
  dsimp only
  rw [hw]
  simp

/-- Witness for C3 on a concrete single-turn run. -/
theorem C3_progress_witness :
    (transcribe_file ("f.mp3") (.ok [⟨0, 31, "S"⟩]) 0 (fun _ => true)
        (fun a b c d => .ok ((fun _ _ _ _ => ([] : List PySeg)) a b c d))).2
      = [("diarizing", 5), ("transcribing", 10)]
        ++ transReports (chunksFor [⟨0, 31, "S"⟩] 0).length 0
            (chunksFor [⟨0, 31, "S"⟩] 0).length
        ++ [("aligning", 95)] :=
  C3_progress ("f.mp3") [⟨0, 31, "S"⟩] 0 (fun _ _ _ _ => []) (by
    have h : chunksFor [⟨0, 31, "S"⟩] 0 = [⟨0, 31, [⟨0, 31, "S"⟩]⟩] := by
      norm_num [chunksFor, naturalChunks, planChunks]
    rw [h]
    intro c hc
    simp at hc
    rw [hc]
    norm_num)

/-- C4 (counterexample): the claim fails for timelines with gaps — for the
timeline `[(0,35,A), (40,80,B)]` the planner produces `[0,35]` and
`[40,80]`: chunk 0's end (35) differs from chunk 1's start (40), so the
chunks are not contiguous. -/
theorem C4_counterexample :
    (naturalChunks [⟨0, 35, "A"⟩, ⟨40, 80, "B"⟩]).map (fun c => (c.start, c.«end»))
      = [((0:ℚ), (35:ℚ)), ((40:ℚ), (80:ℚ))] ∧
    ¬ (naturalChunks [⟨0, 35, "A"⟩, ⟨40, 80, "B"⟩]).Chain'
        (fun c1 c2 => c2.start = c1.«end») := by
  have h : naturalChunks [⟨0, 35, "A"⟩, ⟨40, 80, "B"⟩]
      = [⟨0, 35, [⟨0, 35, "A"⟩]⟩, ⟨40, 80, [⟨40, 80, "B"⟩]⟩] := by
    norm_num [naturalChunks, planChunks]
  rw [h]
  refine ⟨by norm_num, ?_⟩
  simp only [List.chain'_cons, List.chain'_singleton, and_true]
  norm_num

/-- C4 (amended): for every nonempty diarization timeline whose turns have
positive width and are gapless (each turn starts exactly where the previous
one ends), the chunk sequence is contiguous (chunk i's end equals chunk
i+1's start), each chunk has positive width (hence no overlap), and the
chunks cover exactly the processed span: the first chunk starts at the
first turn's start and the last chunk ends at the last turn's end. -/
theorem C4_contiguous (timeline : List Turn) (t0 : Turn)
    (h0 : timeline.head? = some t0)
    (hpos : ∀ t ∈ timeline, t.start < t.«end»)
    (hgap : timeline.Chain' (fun a b => b.start = a.«end»)) :
    (naturalChunks timeline).Chain' (fun c1 c2 => c2.start = c1.«end») ∧
    (∀ c ∈ naturalChunks timeline, c.start < c.«end») ∧
    (naturalChunks timeline).head?.map (fun c => c.start) = some t0.start ∧
    (naturalChunks timeline).getLast?.map (fun c => c.«end»)
      = timeline.getLast?.map (fun t => t.«end») := by
  cases timeline with
  | nil => simp at h0
  | cons t rest =>
    simp only [List.head?_cons, Option.some.injEq] at h0
    subst h0
    obtain ⟨hh, hl, hc, hp⟩ :=
      planChunks_spec (t :: rest) t.start [] t rfl (le_refl _) hpos hgap
    exact ⟨hc, hp, hh, hl⟩

/-- Witness for C4 on a concrete gapless two-turn timeline. -/
theorem C4_contiguous_witness :
    (naturalChunks [⟨0, 31, "A"⟩, ⟨31, 40, "B"⟩]).Chain'
        (fun c1 c2 => c2.start = c1.«end») ∧
    (∀ c ∈ naturalChunks [⟨0, 31, "A"⟩, ⟨31, 40, "B"⟩], c.start < c.«end») ∧
    (naturalChunks [⟨0, 31, "A"⟩, ⟨31, 40, "B"⟩]).head?.map (fun c => c.start)
      = some (⟨(0:ℚ), (31:ℚ), "A"⟩ : Turn).start ∧
    (naturalChunks [⟨0, 31, "A"⟩, ⟨31, 40, "B"⟩]).getLast?.map (fun c => c.«end»)
      = ([⟨0, 31, "A"⟩, ⟨31, 40, "B"⟩] : List Turn).getLast?.map (fun t => t.«end») :=
  C4_contiguous [⟨0, 31, "A"⟩, ⟨31, 40, "B"⟩] ⟨0, 31, "A"⟩ rfl
    (by
      intro t ht
      simp only [List.mem_cons, List.mem_singleton, List.not_mem_nil, or_false] at ht
      rcases ht with ht | ht
      · rw [ht]; norm_num
      · rw [ht]; norm_num)
    (by simp only [List.chain'_cons, List.chain'_singleton, and_true])

/-- C7: only inference-collaborator failures are fatal.  With every
collaborator call succeeding, the run completes (even if extraction fails
for some chunks — they are skipped, not retried, and processing continues);
a diarization exception ends the run with status "error" and its message in
the error field; an ASR exception does the same as soon as any chunk is
actually processed. -/
theorem C7_failure_modes (filename : String) (timeline : List Turn)
    (duration : ℚ) (extract : ℕ → Bool)
    (f : ℕ → ℚ → ℚ → String → List PySeg) (m : String)
    (hproc : ∃ j, ∃ h : j < (chunksFor timeline duration).length,
      0 < ((chunksFor timeline duration).get ⟨j, h⟩).«end»
          - ((chunksFor timeline duration).get ⟨j, h⟩).start
        ∧ extract j) :
    ((transcribe_file filename (.ok timeline) duration extract
        (fun a b c d => .ok (f a b c d))).1.status = "completed" ∧
     (transcribe_file filename (.ok timeline) duration extract
        (fun a b c d => .ok (f a b c d))).1.error = none) ∧
    ((transcribe_file filename (.error m) duration extract
        (fun a b c d => .ok (f a b c d))).1.status = "error" ∧
     (transcribe_file filename (.error m) duration extract
        (fun a b c d => .ok (f a b c d))).1.error = some m) ∧
    ((transcribe_file filename (.ok timeline) duration extract
        (fun _ _ _ _ => .error m)).1.status = "error" ∧
     (transcribe_file filename (.ok timeline) duration extract
        (fun _ _ _ _ => .error m)).1.error = some m) := by
  refine ⟨?_, ⟨rfl, rfl⟩, ?_⟩
  · obtain ⟨w, r, p, hok⟩ := chunkLoop_ok_exists timeline extract f
      (chunksFor timeline duration).length (chunksFor timeline duration) 0 []
      ([("diarizing", 5)] ++ [("transcribing", 10)]) 10
    unfold transcribe_file
    dsimp only
    rw [hok]
    exact ⟨rfl, rfl⟩
  · obtain ⟨r, p, herr⟩ := chunkLoop_err_exists timeline extract m
      (chunksFor timeline duration).length (chunksFor timeline duration) 0
      (by
        obtain ⟨j, hj, hjp, hje⟩ := hproc
        exact ⟨j, hj, hjp, by simpa using hje⟩)
      [] ([("diarizing", 5)] ++ [("transcribing", 10)]) 10
    unfold transcribe_file
    dsimp only
    rw [herr]
    exact ⟨rfl, rfl⟩
/-- Witness for C7 on a concrete single-chunk fallback run. -/
theorem C7_failure_modes_witness :
    ((transcribe_file ("f.mp3") (.ok []) 30 (fun _ => true)
        (fun a b c d => .ok ((fun _ _ _ _ => ([] : List PySeg)) a b c d))).1.status
          = "completed" ∧
     (transcribe_file ("f.mp3") (.ok []) 30 (fun _ => true)
        (fun a b c d => .ok ((fun _ _ _ _ => ([] : List PySeg)) a b c d))).1.error
          = none) ∧
    ((transcribe_file ("f.mp3") (.error ("boom")) 30 (fun _ => true)
        (fun a b c d => .ok ((fun _ _ _ _ => ([] : List PySeg)) a b c d))).1.status
          = "error" ∧
     (transcribe_file ("f.mp3") (.error ("boom")) 30 (fun _ => true)
        (fun a b c d => .ok ((fun _ _ _ _ => ([] : List PySeg)) a b c d))).1.error
          = some ("boom")) ∧
    ((transcribe_file ("f.mp3") (.ok []) 30 (fun _ => true)
        (fun _ _ _ _ => .error ("boom"))).1.status = "error" ∧
     (transcribe_file ("f.mp3") (.ok []) 30 (fun _ => true)
        (fun _ _ _ _ => .error ("boom"))).1.error = some ("boom")) :=
  C7_failure_modes ("f.mp3") [] 30 (fun _ => true) (fun _ _ _ _ => []) "boom"
    (by
      have hch : chunksFor [] (30:ℚ) = [⟨0, 30, []⟩] := by
        norm_num [chunksFor, naturalChunks, fallbackChunks,
          show List.range 1 = [0] from rfl,
          show Int.toNat ⌈(30:ℚ)/30⌉ = 1 by norm_num [Int.ceil_one]]
      rw [hch]
      exact ⟨0, by norm_num, by norm_num, rfl⟩)
/-- C8 (counterexample): a corrupt diarization cache entry is NOT treated
as a cache miss.  With a cache entry present whose parse raises
(`json.load` → "Expecting value…"), `run_diarization` propagates the
exception instead of re-running diarization (whose result `.ok [turn]` it
never returns), and the file ends in status "error". -/
theorem C8_counterexample :
    run_diarization true (some (.error ("Expecting value: line 1 column 1 (char 0)")))
        (.ok [⟨0, 10, "S"⟩])
      = .error ("Expecting value: line 1 column 1 (char 0)") ∧
    (transcribe_file ("f.mp3")
        (run_diarization true
          (some (.error ("Expecting value: line 1 column 1 (char 0)")))
          (.ok [⟨0, 10, "S"⟩]))
        30 (fun _ => true) (fun _ _ _ _ => .ok [])).1.status = "error" ∧
    (Except.error ("Expecting value: line 1 column 1 (char 0)")
        : Except String (List Turn)) ≠ .ok [⟨0, 10, "S"⟩] :=
  ⟨rfl, rfl, by simp⟩

/-- C8 (amended): only an ABSENT cache entry is a cache miss that makes the
pipeline run diarization; a cache entry that exists but cannot be parsed
raises out of `run_diarization` (nothing catches `json.load`'s exception),
and `transcribe_file`'s handler ends the file with status "error" and the
parse failure message — diarization is not re-run. -/
theorem C8_cache (m : String) (dz : Except String (List Turn))
    (filename : String) (duration : ℚ) (extract : ℕ → Bool)
    (asr : ℕ → ℚ → ℚ → String → Except String (List PySeg)) :
    run_diarization true none dz = dz ∧
    run_diarization true (some (.error m)) dz = .error m ∧
    (transcribe_file filename (run_diarization true (some (.error m)) dz)
        duration extract asr).1.status = "error" ∧
    (transcribe_file filename (run_diarization true (some (.error m)) dz)
        duration extract asr).1.error = some m :=
  ⟨rfl, rfl, rfl, rfl⟩

/-- C10: the segment list placed in the task's `result` field by a
completed run has only non-empty texts, and no two consecutive segments
carry the same speaker display label (equal-label runs are merged). -/
theorem C10_result_invariants (filename : String)
    (diar : Except String (List Turn)) (duration : ℚ) (extract : ℕ → Bool)
    (asr : ℕ → ℚ → ℚ → String → Except String (List PySeg))
    (hc : (transcribe_file filename diar duration extract asr).1.status
      = "completed") :
    (∀ s ∈ (transcribe_file filename diar duration extract asr).1.result,
      s.text ≠ "") ∧
    ((transcribe_file filename diar duration extract asr).1.result).Chain'
      (fun a b => a.speaker ≠ b.speaker) := by
  unfold transcribe_file at hc ⊢
  cases diar with
  | error e =>
    dsimp only at hc
    exact absurd hc (by decide)
  | ok timeline =>
    dsimp only at hc ⊢
    cases hcl : chunkLoop timeline extract asr (chunksFor timeline duration).length
        (chunksFor timeline duration) 0 [] ([("diarizing", 5)] ++ [("transcribing", 10)]) 10 with
    | error epr =>
      rw [hcl] at hc
      dsimp only at hc
      exact absurd hc (by decide)
    | ok wrp =>
      dsimp only
      unfold smooth
      exact smooth_invariant (finalGrouping wrp.1).1 [] (by simp) (by simp)
        (finalGrouping_texts wrp.1)

/-- Witness for C10 on a concrete completed run. -/
theorem C10_result_invariants_witness :
    (∀ s ∈ (transcribe_file ("f.mp3") (.ok []) 30 (fun _ => true)
        (fun _ _ _ _ => .ok [])).1.result, s.text ≠ "") ∧
    ((transcribe_file ("f.mp3") (.ok []) 30 (fun _ => true)
        (fun _ _ _ _ => .ok [])).1.result).Chain'
      (fun a b => a.speaker ≠ b.speaker) :=
  C10_result_invariants ("f.mp3") (.ok []) 30 (fun _ => true) (fun _ _ _ _ => .ok [])
    (by
      have hch : chunksFor [] (30:ℚ) = [⟨0, 30, []⟩] := by
        norm_num [chunksFor, naturalChunks, fallbackChunks,
          show List.range 1 = [0] from rfl,
          show Int.toNat ⌈(30:ℚ)/30⌉ = 1 by norm_num [Int.ceil_one]]
      unfold transcribe_file
      dsimp only
      rw [hch]
      norm_num [chunkLoop, finalGrouping, smooth])

/-- C5 (amended): display labels are minted lazily in FLUSH order: the
k-th distinct raw label to have a group flushed — counting also flushes
whose cleaned text is empty and thus emit no segment — is mapped to
"Speaker k+1" in the final `speaker_map`, regardless of the labels'
lexical values. -/
theorem C5_minting (ws : List SpeakerWord) (k : ℕ) (r : String)
    (hk : (addDistinct [] (dedupAdj (ws.map (fun w => w.speaker_raw)))).get? k
      = some r) :
    ((finalGrouping ws).2.1).lookup r = some ("Speaker " ++ toString (k + 1)) := by
  cases ws with
  | nil => simp [dedupAdj, addDistinct, List.map_nil] at hk
  | cons w0 rest =>
    simp only [List.map_cons] at hk
    obtain ⟨hlt, hget⟩ := List.get?_eq_some.mp hk
    have hmap := aggLoop_flush_map rest
      ⟨w0.speaker_raw, w0.start, [w0.word], [], [], 0⟩
    have hfold := mintFold_minted
      (dedupAdj (w0.speaker_raw :: rest.map (fun w => w.speaker_raw))) []
      List.nodup_nil
    unfold finalGrouping
    have hmc : (flushRun (aggLoop rest
        ⟨w0.speaker_raw, w0.start, [w0.word], [], [], 0⟩)).2
        = (mintedMap (addDistinct []
            (dedupAdj (w0.speaker_raw :: rest.map (fun w => w.speaker_raw)))) 0,
          (addDistinct []
            (dedupAdj (w0.speaker_raw :: rest.map (fun w => w.speaker_raw)))).length) := by
      rw [hmap]
      exact hfold
    rw [show (flushRun (aggLoop rest
        ⟨w0.speaker_raw, w0.start, [w0.word], [], [], 0⟩)).2.1
        = mintedMap (addDistinct []
            (dedupAdj (w0.speaker_raw :: rest.map (fun w => w.speaker_raw)))) 0
      from congrArg Prod.fst hmc]
    rw [← hget]
    rw [lookup_mintedMap_get _ 0
      (addDistinct_nodup _ [] List.nodup_nil) k hlt]
    rw [show 0 + k + 1 = k + 1 from by omega]

/-- C5 (counterexample): emitted segments need NOT carry increasing
display labels.  The word stream A:"Корректор", B:"привет", A:"мир" flushes
raw label A first, minting "Speaker 1", but its text is wiped by the
hallucination filter, so no segment is emitted; B's segment then carries
"Speaker 2" and A's later segment "Speaker 1" — the first emitted segments
are numbered 2, 1, not 1, 2 as the claim requires. -/
theorem C5_counterexample :
    ((finalGrouping [⟨"Корректор", 0, 1, "A"⟩, ⟨"привет", 1, 2, "B"⟩,
        ⟨"мир", 2, 3, "A"⟩]).1).map (fun s => s.speaker)
      = ["Speaker 2", "Speaker 1"] ∧
    (["Speaker 2", "Speaker 1"] : List String) ≠ ["Speaker 1", "Speaker 2"] :=
  ⟨by decide, by decide⟩

/-- Witness for C5 on a one-word stream. -/
theorem C5_minting_witness :
    ((finalGrouping [⟨"привет", 0, 1, "B"⟩]).2.1).lookup ("B")
      = some ("Speaker " ++ toString (0 + 1)) :=
  C5_minting [⟨"привет", 0, 1, "B"⟩] 0 ("B") (by decide)

/-- C9 counterexample: `clean_hallucinations` is NOT idempotent. Removing
"Ставьте лайки" from "Субтитры Ставьте лайки: привет" leaves
"Субтитры : привет", in which the pattern `Субтитры\s*:\s*[^.]+` now
matches, so a second application strips the whole string. -/
theorem C9_counterexample :
    clean_hallucinations ("Субтитры Ставьте лайки: привет") = "Субтитры : привет" ∧
    clean_hallucinations (clean_hallucinations ("Субтитры Ставьте лайки: привет"))
      = "" ∧
    ("" : String) ≠ "Субтитры : привет" :=
  ⟨by decide, by decide, by decide⟩

/-- C9: on strings free of the hallucination keywords, `clean_hallucinations`
is idempotent (applying it twice equals applying it once). -/
theorem C9_idempotent_kwfree (s : String) (h : kwFree s) :
    clean_hallucinations (clean_hallucinations s) = clean_hallucinations s := by
  have hcl : clean_hallucinations s = String.mk (pystrip (collapseWS s.data false)) := by
    rw [clean_eq, subs_fold_id s h]
  have h2 : kwFree (clean_hallucinations s) := kwFree_clean s h
  have hnorm : normWS (pystrip (collapseWS s.data false)) :=
    normWS_pystrip _ (collapseWS_normP s.data.length s.data (le_refl _) false)
  rw [clean_eq, subs_fold_id _ h2, hcl]
  show String.mk (pystrip (collapseWS (pystrip (collapseWS s.data false)) false))
      = String.mk (pystrip (collapseWS s.data false))
  rw [collapseWS_id _ false hnorm, pystrip_idem]

/-- Witness for C9 on a concrete keyword-free string. -/
theorem C9_idempotent_kwfree_witness :
    clean_hallucinations (clean_hallucinations ("привет мир"))
      = clean_hallucinations ("привет мир") :=
  C9_idempotent_kwfree ("привет мир")
    (show ∀ w ∈ kwWords, containsCI w.data ("привет мир").data = false from by decide)
end Transcriber
